import Mathlib

/-!
Verification development for the obsidian-marginalia annotation plugin.

Strings from the TypeScript source are modelled as lists of characters
(abbreviation Str).  JavaScript regular expressions are modelled by
hand-derived deterministic scanners that implement the backtracking
semantics of the concrete patterns appearing in the source; each scanner
is documented next to its definition.
-/

set_option maxHeartbeats 1000000
set_option maxRecDepth 10000
set_option linter.unusedVariables false

abbrev Str := List Char

/-- JavaScript whitespace class \s restricted to its ASCII members
(space, tab, newline, carriage return, vertical tab, form feed). -/
def wsChar (c : Char) : Bool :=
  c = ' ' || c = '\t' || c = '\n' || c = '\r' || c = '\x0b' || c = '\x0c'

/-- Model of String.prototype.trim (both-ends whitespace strip). -/
def jsTrim (s : Str) : Str :=
  ((s.dropWhile wsChar).reverse.dropWhile wsChar).reverse

/-- First index at which pat occurs as a substring (String.prototype.indexOf). -/
def firstSub (pat : Str) : Str → Option Nat
  | [] => if pat.isEmpty then some 0 else none
  | c :: t => if pat.isPrefixOf (c :: t) then some 0 else (firstSub pat t).map (· + 1)

/-- String.prototype.includes. -/
def hasSub (pat s : Str) : Bool := (firstSub pat s).isSome

/-- Strip a literal prefix, returning the remainder on success. -/
def stripPre (pre s : Str) : Option Str :=
  if pre.isPrefixOf s then some (s.drop pre.length) else none

/-- Decimal digit value of a character, if it is a digit. -/
def digitVal (c : Char) : Option Nat :=
  if 48 ≤ c.toNat ∧ c.toNat ≤ 57 then some (c.toNat - 48) else none

/-- Consume leading decimal digits, accumulating their value. -/
def parseDigitsAux : Str → Nat → Nat × Str
  | [], acc => (acc, [])
  | c :: t, acc =>
    match digitVal c with
    | some d => parseDigitsAux t (acc * 10 + d)
    | none => (acc, c :: t)

/-- Parse a nonempty run of decimal digits. -/
def parseNatPre (s : Str) : Option (Nat × Str) :=
  match s with
  | [] => none
  | c :: _ => if (digitVal c).isSome then some (parseDigitsAux s 0) else none

/-- String.prototype.split with separator newline. -/
def splitNl : Str → List Str
  | [] => [[]]
  | c :: t =>
    if c = '\n' then [] :: splitNl t
    else
      match splitNl t with
      | l :: ls => (c :: l) :: ls
      | [] => [[c]]

/-- Decimal digits of a natural number, least significant first;
structural fuel keeps the definition kernel-reducible (fuel n + 1 always
suffices since the value shrinks by a factor of ten each step). -/
def natToRevAux : Nat → Nat → Str
  | 0, _ => []
  | fuel + 1, n =>
    if n < 10 then [Char.ofNat (48 + n)]
    else Char.ofNat (48 + n % 10) :: natToRevAux fuel (n / 10)

/-- Decimal digits of a natural number, least significant first. -/
def natToRevDigits (n : Nat) : Str := natToRevAux (n + 1) n

/-- Decimal rendering of a natural number (JS number stringification
for nonnegative integers). -/
def natToStr (n : Nat) : Str := (natToRevDigits n).reverse

namespace Codec

/-- src/models/Annotation.ts: interface AnnotationPosition.  The optional
block_id / paragraph_index fields are never set anywhere in the sources
(both capture functions in locationUtils.ts build plain three-field
positions), so they are omitted from the model. -/
structure AnnotationPosition where
  file_path : Str
  offset : Nat
  line_number : Nat
deriving DecidableEq

/-- A JavaScript value held in the position field of a parsed annotation:
either a full position object or the empty object produced when the
position metadata is absent or fails to JSON-parse. -/
inductive PosVal where
  | empty : PosVal
  | obj : AnnotationPosition → PosVal
deriving DecidableEq

/-- src/models/Annotation.ts: interface Annotation. -/
structure Annotation where
  annotation_id : Str
  selected_text : Str
  position : PosVal
  created : Str
  updated : Str
  content : Str
deriving DecidableEq

/-- src/models/Annotation.ts: createAnnotation.  The ambient id generator
(generateId) and clock (new Date().toISOString()) are passed as
parameters genId and now; the source uses the single value now for both
timestamps and performs no validation of selectedText. -/
def createAnnotation (genId now : Str) (selectedText : Str)
    (position : PosVal) (content : Str) : Annotation :=
  { annotation_id := genId
    selected_text := selectedText
    position := position
    created := now
    updated := now
    content := content }

/-- src/models/Annotation.ts: updateAnnotation (the pure record update). -/
def updateAnnotationPure (a : Annotation) (content : Str) (now : Str) : Annotation :=
  { a with content := content, updated := now }

/-- src/models/Annotation.ts: escapeYaml. -/
def escapeYaml (s : Str) : Str :=
  if s.contains ':' || s.contains '#' || s.contains '\n' || s.contains '"' then
    '"' :: (s.map (fun c => if c = '"' then ['\\', '"'] else [c])).flatten ++ ['"']
  else s

/-- Left brace character, U+007B. -/
def lb : Char := '\x7b'

/-- Right brace character, U+007D. -/
def rb : Char := '\x7d'

/-- JSON string-character escaping as performed by JSON.stringify for
characters with code point at least 32 (only the quote and the backslash
need escaping there; control characters below 32 are excluded by the
well-formedness hypotheses of the theorems that use this model). -/
def jsonEscChar (c : Char) : Str :=
  if c = '"' || c = '\\' then ['\\', c] else [c]

/-- JSON string literal for s (JSON.stringify of a string). -/
def jsonString (s : Str) : Str :=
  '"' :: (s.map jsonEscChar).flatten ++ ['"']

/-- JSON.stringify of an AnnotationPosition value; JS object-literal key
order is file_path, offset, line_number (locationUtils.ts builds the
object in that order). -/
def posToJson : PosVal → Str
  | .empty => [lb, rb]
  | .obj p =>
    lb :: "\"file_path\":".toList ++ jsonString p.file_path
      ++ ",\"offset\":".toList ++ natToStr p.offset
      ++ ",\"line_number\":".toList ++ natToStr p.line_number ++ [rb]

/-- Parse the body of a JSON string literal (after the opening quote)
up to the closing quote, handling the escapes emitted by jsonEscChar
plus the common n, t, r escapes. -/
def parseJsonStringBody : Str → Option (Str × Str)
  | [] => none
  | c :: t =>
    if c = '"' then some ([], t)
    else if c = '\\' then
      match t with
      | [] => none
      | e :: t2 =>
        let u : Option Char :=
          if e = '"' ∨ e = '\\' ∨ e = '/' then some e
          else if e = 'n' then some '\n'
          else if e = 't' then some '\t'
          else if e = 'r' then some '\r'
          else none
        match u with
        | none => none
        | some u => (parseJsonStringBody t2).map (fun p => (u :: p.1, p.2))
    else (parseJsonStringBody t).map (fun p => (c :: p.1, p.2))

/-- Parse a position JSON object (possibly the empty object) from the
head of s, returning the remainder.  This models JSON.parse restricted
to the object shapes that arise for the position metadata field; other
inputs are rejected (modelling the catch branch that substitutes the
empty object). -/
def parsePosInline (s : Str) : Option (PosVal × Str) :=
  match stripPre [lb, rb] s with
  | some r => some (.empty, r)
  | none => do
    let r ← stripPre (lb :: "\"file_path\":\"".toList) s
    let (fp, r) ← parseJsonStringBody r
    let r ← stripPre (",\"offset\":".toList) r
    let (off, r) ← parseNatPre r
    let r ← stripPre (",\"line_number\":".toList) r
    let (ln, r) ← parseNatPre r
    let r ← stripPre [rb] r
    some (.obj ⟨fp, off, ln⟩, r)

/-- JSON.parse of a complete position value string. -/
def jsonParsePos (s : Str) : Option PosVal :=
  match parsePosInline s with
  | some (v, []) => some v
  | _ => none

def dash3 : Str := "---".toList

def nlDash3 : Str := '\n' :: dash3

/-- The join separator used by serializeAnnotations. -/
def sepStr : Str := "\n---\n\n".toList

/-- The YAML frontmatter block emitted for one record by
serializeAnnotations (between the two delimiter lines). -/
def yamlOf (a : Annotation) : Str :=
  "annotation_id: ".toList ++ a.annotation_id
    ++ '\n' :: "selected_text: ".toList ++ escapeYaml a.selected_text
    ++ '\n' :: "position: ".toList ++ posToJson a.position
    ++ '\n' :: "created: ".toList ++ a.created
    ++ '\n' :: "updated: ".toList ++ a.updated

/-- The full template-literal block for one record. -/
def blockOf (a : Annotation) : Str :=
  dash3 ++ '\n' :: yamlOf a ++ '\n' :: dash3 ++ '\n' :: '\n' :: a.content ++ ['\n']

/-- src/models/Annotation.ts: serializeAnnotations. -/
def serializeAnnotations (l : List Annotation) : Str :=
  if l = [] then [] else List.intercalate sepStr (l.map blockOf)

/-- Greedy-with-backtracking semantics of the regex fragment
three-dashes-then-ws-star-then-newline, after the three dashes have been
consumed: the star consumes whitespace up to and including the last
newline of the maximal leading whitespace run (the largest backtracking
choice whose following character is the required newline); it fails when
that run contains no newline. -/
def lastNl : Str → Option Nat
  | [] => none
  | c :: t =>
    match lastNl t with
    | some k => some (k + 1)
    | none => if c = '\n' then some 0 else none

/-- Consume ws-star-then-newline at the head of s (see lastNl). -/
def wsNl (s : Str) : Option Str :=
  match lastNl (s.takeWhile wsChar) with
  | none => none
  | some k => some (s.drop (k + 1))

/-- Lazy scan implementing a reluctant group followed by the literal tok
and then ws-star-newline: returns the shortest prefix g such that tok
occurs right after g and the ws-star-newline fragment succeeds after tok;
positions where tok matches but the whitespace fragment fails are
skipped, exactly as regex backtracking would extend the reluctant group. -/
def lazyScanWs (tok : Str) : Str → Option (Str × Str)
  | [] => none
  | c :: t =>
    match if tok.isPrefixOf (c :: t) then wsNl ((c :: t).drop tok.length) else none with
    | some r => some ([], r)
    | none => (lazyScanWs tok t).map (fun p => (c :: p.1, p.2))

/-- Lazy scan implementing a reluctant group with lookahead tok-or-end:
returns the shortest prefix after which tok occurs (left unconsumed), or
the whole string when tok never occurs (end-of-input lookahead). -/
def lazyScanTo (tok : Str) : Str → Str × Str
  | [] => ([], [])
  | c :: t =>
    if tok.isPrefixOf (c :: t) then ([], c :: t)
    else
      let p := lazyScanTo tok t
      (c :: p.1, p.2)

/-- Attempt of the frontmatter regex of parseAnnotations at the head of
the string: three dashes, ws-star-newline, reluctant group 1, newline
and three dashes, ws-star-newline, reluctant group 2 with
newline-dashes-or-end lookahead.  Returns group 1, group 2 and the
unconsumed remainder (the lookahead is not consumed, matching lastIndex
semantics of RegExp.exec). -/
def matchAt (s : Str) : Option (Str × Str × Str) := do
  let s1 ← stripPre dash3 s
  let s2 ← wsNl s1
  let (g1, s3) ← lazyScanWs nlDash3 s2
  let (g2, rest) := lazyScanTo nlDash3 s3
  some (g1, g2, rest)

/-- Leftmost match: RegExp.exec scans forward for the first position at
which the pattern matches. -/
def findMatch : Str → Option (Str × Str × Str)
  | [] => none
  | s@(_ :: t) =>
    match matchAt s with
    | some m => some m
    | none => findMatch t

/-- The exec loop of parseAnnotations over the frontmatter regex; fuel
bounds the number of iterations (each match consumes at least one
character, so length-of-input fuel suffices). -/
def execFuel : Nat → Str → List (Str × Str)
  | 0, _ => []
  | fuel + 1, s =>
    match findMatch s with
    | none => []
    | some (g1, g2, rest) => (g1, g2) :: execFuel fuel rest

/-- The metadata record accumulated by parseYamlFrontmatter; absent
fields model absent JavaScript object keys. -/
structure YamlMeta where
  annotation_id : Option Str := none
  selected_text : Option Str := none
  position : Option PosVal := none
  created : Option Str := none
  updated : Option Str := none

/-- One line of the frontmatter: indexOf-colon split with a positive
colon index, both halves trimmed. -/
def lineKV (l : Str) : Option (Str × Str) :=
  match firstSub [':'] l with
  | none => none
  | some k => if 0 < k then some (jsTrim (l.take k), jsTrim (l.drop (k + 1))) else none

/-- Process one frontmatter line into the metadata record; the position
value goes through JSON.parse with the empty object substituted on
failure; keys other than the five that are later read are dropped. -/
def applyLine (m : YamlMeta) (l : Str) : YamlMeta :=
  match lineKV l with
  | none => m
  | some (k, v) =>
    if k = "position".toList then { m with position := some ((jsonParsePos v).getD .empty) }
    else if k = "annotation_id".toList then { m with annotation_id := some v }
    else if k = "selected_text".toList then { m with selected_text := some v }
    else if k = "created".toList then { m with created := some v }
    else if k = "updated".toList then { m with updated := some v }
    else m

/-- JavaScript truthy-or for string-valued metadata fields (undefined or
the empty string fall through to the default). -/
def jsOr (o : Option Str) (d : Str) : Str :=
  match o with
  | some v => if v = [] then d else v
  | none => d

/-- JavaScript truthy-or for the position field: any parsed object value
(including the empty object, which is truthy) is kept; an absent key
yields the empty object. -/
def jsOrPos (o : Option PosVal) : PosVal :=
  match o with
  | some v => v
  | none => .empty

/-- src/models/Annotation.ts: parseYamlFrontmatter.  The ambient clock
(new Date().toISOString(), used as the default for missing timestamps)
is the parameter now. -/
def parseYamlFrontmatter (now : Str) (yaml : Str) (content : Str) : Option Annotation :=
  let m := (splitNl yaml).foldl applyLine {}
  match m.annotation_id with
  | none => none
  | some i =>
    if i = [] then none
    else some
      { annotation_id := i
        selected_text := jsOr m.selected_text []
        position := jsOrPos m.position
        created := jsOr m.created now
        updated := jsOr m.updated now
        content := content }

def sepStartTok : Str := "<!-- ANNOTATION_START ".toList

def sepCloseTok : Str := " -->".toList

def sepEndTok : Str := "\n<!-- ANNOTATION_END".toList

/-- Attempt of the legacy separator-format regex at the head of the
string: the start token, reluctant group 1, the close token followed by
ws-star-newline, reluctant group 2 with end-token-or-end lookahead. -/
def sepMatchAt (s : Str) : Option (Str × Str × Str) := do
  let s1 ← stripPre sepStartTok s
  let (g1, s2) ← lazyScanWs sepCloseTok s1
  let (g2, rest) := lazyScanTo sepEndTok s2
  some (g1, g2, rest)

def sepFindMatch : Str → Option (Str × Str × Str)
  | [] => none
  | s@(_ :: t) =>
    match sepMatchAt s with
    | some m => some m
    | none => sepFindMatch t

def sepExecFuel : Nat → Str → List (Str × Str)
  | 0, _ => []
  | fuel + 1, s =>
    match sepFindMatch s with
    | none => []
    | some (g1, g2, rest) => (g1, g2) :: sepExecFuel fuel rest

/-- JSON.parse of the metadata object of a legacy separator block,
modelled for the canonical key order annotation_id, selected_text,
position, created, updated (the only shape this plugin family ever
wrote); other JSON inputs are rejected, which the surrounding
try/catch turns into skipping the block. -/
def jsonParseSepMeta (s : Str) : Option Annotation := do
  let r ← stripPre (lb :: "\"annotation_id\":\"".toList) s
  let (aid, r) ← parseJsonStringBody r
  let r ← stripPre (",\"selected_text\":\"".toList) r
  let (st, r) ← parseJsonStringBody r
  let r ← stripPre (",\"position\":".toList) r
  let (pos, r) ← parsePosInline r
  let r ← stripPre (",\"created\":\"".toList) r
  let (cr, r) ← parseJsonStringBody r
  let r ← stripPre (",\"updated\":\"".toList) r
  let (up, r) ← parseJsonStringBody r
  let r ← stripPre [rb] r
  if r = [] then
    some { annotation_id := aid, selected_text := st, position := pos
           created := cr, updated := up, content := [] }
  else none

/-- Build an annotation from one legacy separator-format match. -/
def parseSepBlock (g1 g2 : Str) : Option Annotation :=
  (jsonParseSepMeta g1).map (fun a => { a with content := jsTrim g2 })

/-- src/models/Annotation.ts: parseAnnotations.  Tries the YAML
frontmatter format, falling back to the legacy separator format when no
YAML annotation was found. -/
def parseAnnotations (now : Str) (content : Str) : List Annotation :=
  let pairs := execFuel (content.length + 1) content
  let anns := pairs.filterMap (fun p => parseYamlFrontmatter now p.1 (jsTrim p.2))
  if anns.isEmpty then
    (sepExecFuel (content.length + 1) content).filterMap (fun p => parseSepBlock p.1 p.2)
  else anns

/-- Well-formedness for the single-line metadata fields (annotation_id,
created, updated): nonempty, newline-free and trim-stable.  Every value
this plugin family writes into these fields (generateId output, ISO
timestamps) satisfies this. -/
def wfField (s : Str) : Prop := s ≠ [] ∧ '\n' ∉ s ∧ jsTrim s = s

/-- Well-formedness for the selected text: newline-free, trim-stable and
free of the characters that make escapeYaml quote the value (the parser
never strips such quotes back off; see C1_counterexample). -/
def wfSelected (s : Str) : Prop :=
  '\n' ∉ s ∧ ':' ∉ s ∧ '#' ∉ s ∧ '"' ∉ s ∧ jsTrim s = s

/-- Well-formedness for the position value: file paths contain no
control characters (JSON.stringify renders those as unicode escape
sequences, which this model does not reproduce; every printable path is
covered). -/
def wfPosVal : PosVal → Prop
  | .empty => True
  | .obj p => ∀ c ∈ p.file_path, 31 < c.toNat

/-- Well-formedness for the note content: nonempty, trim-stable, and no
line of it starts with three dashes (such a line would be read as a
frontmatter delimiter when the file is parsed back). -/
def wfContent (c : Str) : Prop :=
  c ≠ [] ∧ jsTrim c = c ∧ dash3.isPrefixOf c = false ∧ hasSub nlDash3 c = false

/-- A record all of whose fields are well-formed in the above senses. -/
def wfRecord (a : Annotation) : Prop :=
  wfField a.annotation_id ∧ wfSelected a.selected_text ∧ wfPosVal a.position ∧
    wfField a.created ∧ wfField a.updated ∧ wfContent a.content

instance (s : Str) : Decidable (wfField s) :=
  inferInstanceAs (Decidable (_ ∧ _ ∧ _))

instance (s : Str) : Decidable (wfSelected s) :=
  inferInstanceAs (Decidable (_ ∧ _ ∧ _ ∧ _ ∧ _))

instance : (v : PosVal) → Decidable (wfPosVal v)
  | .empty => .isTrue trivial
  | .obj p => inferInstanceAs (Decidable (∀ c ∈ p.file_path, 31 < c.toNat))

instance (c : Str) : Decidable (wfContent c) :=
  inferInstanceAs (Decidable (_ ∧ _ ∧ _ ∧ _))

instance (a : Annotation) : Decidable (wfRecord a) :=
  inferInstanceAs (Decidable (_ ∧ _ ∧ _ ∧ _ ∧ _ ∧ _))

end Codec

namespace Hl

mutual
/-- Rendered-tree model for src/processors/AnnotationHighlighter.ts: a
node is a text node or an element with tag, class list, attribute list
and children; DForest is the child list (mutual with DNode so that all
recursions stay structural and kernel-reducible).  The inline style
backgroundColor is modelled as an ordinary attribute. -/
inductive DNode where
  | text : Str → DNode
  | elem : Str → List Str → List (Str × Str) → DForest → DNode
deriving DecidableEq
inductive DForest where
  | nil : DForest
  | cons : DNode → DForest → DForest
deriving DecidableEq
end

def DForest.append : DForest → DForest → DForest
  | .nil, g => g
  | .cons n f, g => .cons n (DForest.append f g)

def ofList : List DNode → DForest
  | [] => .nil
  | n :: t => .cons n (ofList t)

/-- MARGINALIA_HIGHLIGHT_CLASS. -/
def HL : Str := "marginalia-highlight".toList

/-- The data attribute written through dataset.annotationId. -/
def dataAnnKey : Str := "data-annotation-id".toList

/-- The modelled style attribute. -/
def bgStyleKey : Str := "style.backgroundColor".toList

def attrGet : List (Str × Str) → Str → Option Str
  | [], _ => none
  | (k, v) :: t, key => if k = key then some v else attrGet t key

/-- Whether an element matches the selector
[data-annotation-id="id"].marginalia-highlight. -/
def isHLMatch (cls : List Str) (attrs : List (Str × Str)) (id : Str) : Bool :=
  cls.contains HL && (attrGet attrs dataAnnKey == some id)

/-- Whether an element matches the closest() selector
code, pre, .code-block. -/
def isCodeAncestor (tag : Str) (cls : List Str) : Bool :=
  tag == "code".toList || tag == "pre".toList || cls.contains ("code-block".toList)

mutual
/-- First element matching the highlight selector, in document order,
self included. -/
def qselN (id : Str) : DNode → Option DNode
  | .text _ => none
  | .elem tag cls attrs kids =>
    if isHLMatch cls attrs id then some (.elem tag cls attrs kids)
    else qselF id kids
def qselF (id : Str) : DForest → Option DNode
  | .nil => none
  | .cons n f =>
    match qselN id n with
    | some e => some e
    | none => qselF id f
end

/-- src/processors/AnnotationHighlighter.ts: getHighlightElement
(container.querySelector searches descendants only). -/
def getHighlightElement (container : DNode) (id : Str) : Option DNode :=
  match container with
  | .text _ => none
  | .elem _ _ _ kids => qselF id kids

mutual
/-- Number of elements (self included) matching the highlight selector. -/
def countN (id : Str) : DNode → Nat
  | .text _ => 0
  | .elem _ cls attrs kids => (if isHLMatch cls attrs id then 1 else 0) + countF id kids
def countF (id : Str) : DForest → Nat
  | .nil => 0
  | .cons n f => countN id n + countF id f
end

/-- Marker count inside a container: the number of descendant elements
matching the highlight selector (the container itself is outside the
querySelectorAll scope, like in getHighlightElement). -/
def countHighlights (container : DNode) (id : Str) : Nat :=
  match container with
  | .text _ => 0
  | .elem _ _ _ kids => countF id kids

mutual
/-- Concatenated text content of a node (Node.textContent). -/
def textN : DNode → Str
  | .text s => s
  | .elem _ _ _ kids => textF kids
def textF : DForest → Str
  | .nil => []
  | .cons n f => textN n ++ textF f
end

def textContent (container : DNode) : Str := textN container

mutual
/-- Document-order list of text leaves under the given context, paired
with their eligibility for highlighting: a leaf is skipped when its
direct parent carries the highlight class or when some ancestor within
the container matches the code selector. -/
def leavesN (pHL inCode : Bool) : DNode → List (Bool × Str)
  | .text s => [((!pHL && !inCode), s)]
  | .elem tag cls attrs kids =>
    leavesF (cls.contains HL) (inCode || isCodeAncestor tag cls) kids
def leavesF (pHL inCode : Bool) : DForest → List (Bool × Str)
  | .nil => []
  | .cons n f => leavesN pHL inCode n ++ leavesF pHL inCode f
end

/-- Leaves of the container as visited by the TreeWalker (the container
root itself is not visited; its classes and tag seed the context of its
direct children). -/
def leavesTop : DNode → List (Bool × Str)
  | .text _ => []
  | .elem tag cls attrs kids =>
    leavesF (cls.contains HL) (isCodeAncestor tag cls) kids

/-- The highlight span built by wrapTextWithHighlight. -/
def mkHighlightSpan (id color matched : Str) : DNode :=
  .elem ("span".toList) [HL] [(dataAnnKey, id), (bgStyleKey, color)]
    (.cons (.text matched) .nil)

/-- src/processors/AnnotationHighlighter.ts: wrapTextWithHighlight —
the replacement fragment for the wrapped text node: optional before
text, the span around substring(startIndex, startIndex + len), optional
after text (empty before/after strings are not inserted). -/
def wrapFragment (s : Str) (i len : Nat) (id color : Str) : DForest :=
  let before := s.take i
  let matched := (s.drop i).take len
  let after := (s.drop i).drop len
  ofList ((if before.isEmpty then [] else [DNode.text before])
    ++ [mkHighlightSpan id color matched]
    ++ (if after.isEmpty then [] else [DNode.text after]))

mutual
/-- The TreeWalker pass of highlightText / injectHighlightIntoElement:
find the first text node, in document order, that is eligible (not
inside a highlight parent or a code region) and contains the target,
and replace it by the wrap fragment at the first occurrence index;
none when no such node exists. -/
def findWrapN (tgt id color : Str) (pHL inCode : Bool) : DNode → Option DForest
  | .text s =>
    if pHL || inCode then none
    else
      match firstSub tgt s with
      | some i => some (wrapFragment s i tgt.length id color)
      | none => none
  | .elem tag cls attrs kids =>
    match findWrapF tgt id color (cls.contains HL) (inCode || isCodeAncestor tag cls) kids with
    | some kids' => some (.cons (.elem tag cls attrs kids') .nil)
    | none => none
def findWrapF (tgt id color : Str) (pHL inCode : Bool) : DForest → Option DForest
  | .nil => none
  | .cons n f =>
    match findWrapN tgt id color pHL inCode n with
    | some frag => some (frag.append f)
    | none => (findWrapF tgt id color pHL inCode f).map (fun f' => .cons n f')
end

/-- src/processors/AnnotationHighlighter.ts: highlightText (the mark
operation used by processHighlights; no whitespace retry here). -/
def highlightText (container : DNode) (a : Codec.Annotation) (color : Str) : DNode :=
  let tgt := a.selected_text
  if tgt.isEmpty || (jsTrim tgt).isEmpty then container
  else if (getHighlightElement container a.annotation_id).isSome then container
  else
    match container with
    | .text s => .text s
    | .elem tag cls attrs kids =>
      match findWrapF tgt a.annotation_id color (cls.contains HL) (isCodeAncestor tag cls) kids with
      | some kids' => .elem tag cls attrs kids'
      | none => .elem tag cls attrs kids

/-- replace(/\s+/g, ""). -/
def stripWs (s : Str) : Str := s.filter (fun c => !wsChar c)

mutual
/-- The whitespace-collapsed retry loop of injectHighlightIntoElement:
the walker is restarted over all text nodes (no eligibility skips); a
node whose whitespace-stripped text contains the stripped target is a
candidate, but the wrap happens only when the trimmed original target
occurs verbatim in the original node text (originalIndex >= 0);
otherwise the loop continues with the next node. -/
def retryN (tgt id color : Str) : DNode → Option DForest
  | .text s =>
    if hasSub (stripWs tgt) (stripWs s) then
      match firstSub (jsTrim tgt) s with
      | some i => some (wrapFragment s i tgt.length id color)
      | none => none
    else none
  | .elem tag cls attrs kids =>
    (retryF tgt id color kids).map (fun kids' => .cons (.elem tag cls attrs kids') .nil)
def retryF (tgt id color : Str) : DForest → Option DForest
  | .nil => none
  | .cons n f =>
    match retryN tgt id color n with
    | some frag => some (frag.append f)
    | none => (retryF tgt id color f).map (fun f' => .cons n f')
end

/-- src/processors/AnnotationHighlighter.ts: injectHighlightIntoElement
(idempotence check, first exact pass, then the whitespace-collapsed
retry). -/
def injectHighlightIntoElement (container : DNode) (a : Codec.Annotation) (color : Str) : DNode :=
  if (getHighlightElement container a.annotation_id).isSome then container
  else
    let tgt := a.selected_text
    if tgt.isEmpty || (jsTrim tgt).isEmpty then container
    else
      match container with
      | .text s => .text s
      | .elem tag cls attrs kids =>
        match findWrapF tgt a.annotation_id color (cls.contains HL) (isCodeAncestor tag cls) kids with
        | some kids' => .elem tag cls attrs kids'
        | none =>
          if (stripWs tgt).isEmpty then .elem tag cls attrs kids
          else
            match retryF tgt a.annotation_id color kids with
            | some kids' => .elem tag cls attrs kids'
            | none => .elem tag cls attrs kids

/-- Drop empty text nodes and merge adjacent text siblings (the merging
pass of Node.normalize at one level). -/
def mergeTexts : DForest → DForest
  | .nil => .nil
  | .cons (.text s) rest =>
    if s.isEmpty then mergeTexts rest
    else
      match mergeTexts rest with
      | .cons (.text s2) r2 => .cons (.text (s ++ s2)) r2
      | r => .cons (.text s) r
  | .cons (.elem tag cls attrs kids) rest => .cons (.elem tag cls attrs kids) (mergeTexts rest)

mutual
/-- Node.normalize over a subtree: normalize children recursively, then
merge text runs at each level. -/
def normN : DNode → DNode
  | .text s => .text s
  | .elem tag cls attrs kids => .elem tag cls attrs (mergeTexts (mapNorm kids))
def mapNorm : DForest → DForest
  | .nil => .nil
  | .cons n f => .cons (normN n) (mapNorm f)
end

def normF (f : DForest) : DForest := mergeTexts (mapNorm f)

/-- Whether some direct child of a forest matches the highlight
selector (such a child's parent receives the normalize() call). -/
def hasDirectMatch (id : Str) : DForest → Bool
  | .nil => false
  | .cons (.text _) f => hasDirectMatch id f
  | .cons (.elem _ cls attrs _) f => isHLMatch cls attrs id || hasDirectMatch id f

mutual
/-- The unwrap pass of removeHighlight: every descendant element
matching the selector is replaced by its (recursively processed) child
content; every element that had a matching direct child gets its
rebuilt subtree normalized, modelling the parent.normalize() call. -/
def rmUnwN (id : Str) : DNode → DForest
  | .text s => .cons (.text s) .nil
  | .elem tag cls attrs kids =>
    if isHLMatch cls attrs id then rmUnwF id kids
    else
      .cons (.elem tag cls attrs
        (if hasDirectMatch id kids then mergeTexts (mapNorm (rmUnwF id kids))
         else rmUnwF id kids)) .nil
def rmUnwF (id : Str) : DForest → DForest
  | .nil => .nil
  | .cons n f => DForest.append (rmUnwN id n) (rmUnwF id f)
end

/-- src/processors/AnnotationHighlighter.ts: removeHighlight.  When no
element matches the selector the querySelectorAll loop body never runs
and the tree is untouched; otherwise matched spans are unwrapped in
place and each parent of a match is normalized. -/
def removeHighlight (container : DNode) (id : Str) : DNode :=
  match container with
  | .text s => .text s
  | .elem tag cls attrs kids =>
    if (qselF id kids).isSome then
      .elem tag cls attrs
        (if hasDirectMatch id kids then mergeTexts (mapNorm (rmUnwF id kids))
         else rmUnwF id kids)
    else .elem tag cls attrs kids

end Hl

/-- Array.prototype.findIndex, with -1 modelled as none. -/
def jsFindIndex {α : Type} (p : α → Bool) : List α → Option Nat
  | [] => none
  | x :: t => if p x then some 0 else (jsFindIndex p t).map (· + 1)

/-- Association-list lookup (JS Map.get / vault path lookup). -/
def alistGet {α : Type} : List (Str × α) → Str → Option α
  | [], _ => none
  | (k, v) :: t, key => if k = key then some v else alistGet t key

/-- Association-list update (JS Map.set / vault write): replace the
existing binding or append a new one. -/
def alistSet {α : Type} : List (Str × α) → Str → α → List (Str × α)
  | [], key, v => [(key, v)]
  | (k, w) :: t, key, v => if k = key then (key, v) :: t else (k, w) :: alistSet t key v

/-- Association-list removal (vault delete). -/
def alistRemove {α : Type} (m : List (Str × α)) (key : Str) : List (Str × α) :=
  m.filter (fun p => !(p.1 == key))

instance {ε α : Type} [DecidableEq ε] [DecidableEq α] : DecidableEq (Except ε α) := fun x y =>
  match x, y with
  | .error a, .error b =>
    if h : a = b then .isTrue (by subst h; rfl)
    else .isFalse (fun hc => h (Except.error.inj hc))
  | .ok a, .ok b =>
    if h : a = b then .isTrue (by subst h; rfl)
    else .isFalse (fun hc => h (Except.ok.inj hc))
  | .error _, .ok _ => .isFalse (fun hc => Except.noConfusion hc)
  | .ok _, .error _ => .isFalse (fun hc => Except.noConfusion hc)

namespace Loc

/-- A DOM Range: start and end containers are addressed by child-index
paths inside the body tree.  The function under study reads only the
start; a range is collapsed when start and end coincide. -/
structure DomRange where
  startPath : List Nat
  startOffset : Nat
  endPath : List Nat
  endOffset : Nat
deriving DecidableEq

def DomRange.collapsed (r : DomRange) : Bool :=
  r.startPath == r.endPath && r.startOffset == r.endOffset

/-- A DOM Selection: its list of ranges (rangeCount is the length). -/
structure Selection where
  ranges : List DomRange
deriving DecidableEq

def rangeCount (sel : Selection) : Nat := sel.ranges.length

def forestGet : Hl.DForest → Nat → Option Hl.DNode
  | .nil, _ => none
  | .cons n _, 0 => some n
  | .cons _ f, i + 1 => forestGet f i

/-- Node at a child-index path. -/
def nodeAt : List Nat → Hl.DNode → Option Hl.DNode
  | [], n => some n
  | _ :: _, .text _ => none
  | i :: p, .elem _ _ _ kids =>
    match forestGet kids i with
    | some c => nodeAt p c
    | none => none

/-- parseInt(v, 10) for the nonnegative values that occur in data-line
attributes (NaN, which JS would propagate into the position, is
modelled as 0; this does not affect the null-versus-descriptor
behaviour studied here). -/
def jsParseIntNat (v : Str) : Nat :=
  match parseNatPre (v.dropWhile wsChar) with
  | some (n, _) => n
  | none => 0

/-- The ancestor walk of getPositionFromDOMSelection looking for a
truthy data-line attribute; paths are tried from the start element
upward; 0 when nothing is found. -/
def dataLineWalk (body : Hl.DNode) : List (List Nat) → Nat
  | [] => 0
  | p :: rest =>
    match nodeAt p body with
    | some (.elem _ _ attrs _) =>
      match Hl.attrGet attrs ("data-line".toList) with
      | some v => if v.isEmpty then dataLineWalk body rest else jsParseIntNat v
      | none => dataLineWalk body rest
    | _ => dataLineWalk body rest

def findDataLine (body : Hl.DNode) (r : DomRange) : Nat :=
  let p0 :=
    match nodeAt r.startPath body with
    | some (.text _) => r.startPath.dropLast
    | _ => r.startPath
  dataLineWalk body (((List.range (p0.length + 1)).reverse).map (fun k => p0.take k))

mutual
/-- Document-order text nodes of a subtree, with their paths. -/
def textPathsN (path : List Nat) : Hl.DNode → List (List Nat × Str)
  | .text s => [(path, s)]
  | .elem _ _ _ kids => textPathsF path 0 kids
def textPathsF (path : List Nat) (i : Nat) : Hl.DForest → List (List Nat × Str)
  | .nil => []
  | .cons n f => textPathsN (path ++ [i]) n ++ textPathsF path (i + 1) f
end

/-- Text nodes visited by the TreeWalker over the body (the body root
element itself is not a text node). -/
def walkerTexts (body : Hl.DNode) : List (List Nat × Str) :=
  match body with
  | .text _ => []
  | .elem _ _ _ kids => textPathsF [] 0 kids

/-- The running-offset loop: accumulate text lengths until the range's
start container is reached (a text node contains the container exactly
when it is the container); when the loop never breaks the offset is the
total accumulated length. -/
def offsetWalk (startPath : List Nat) (startOffset : Nat) : List (List Nat × Str) → Nat
  | [] => 0
  | (p, s) :: t =>
    if p == startPath then startOffset else s.length + offsetWalk startPath startOffset t

/-- src/utils/locationUtils.ts: getPositionFromDOMSelection.  Returns
null only when the selection has no ranges; otherwise a position is
always produced (the collapsed flag of the range is never consulted). -/
def getPositionFromDOMSelection (filePath : Str) (body : Hl.DNode) (sel : Selection) :
    Option Codec.AnnotationPosition :=
  match sel.ranges with
  | [] => none
  | r :: _ =>
    some { file_path := filePath
           offset := offsetWalk r.startPath r.startOffset (walkerTexts body)
           line_number := findDataLine body r }

end Loc

namespace MainP

/-- src/main.ts: interface Annotation.  Records parsed from disk may
lack fields (the parser casts a partial object), so every field is an
Option; a missing field is JS undefined.  A numeric field whose text
failed parseInt (NaN) is modelled as absent. -/
structure MainAnn where
  id : Option Str := none
  sourceFile : Option Str := none
  startOffset : Option Int := none
  endOffset : Option Int := none
  selectedText : Option Str := none
  content : Option Str := none
  createdAt : Option Int := none
  updatedAt : Option Int := none
deriving DecidableEq

def curNonempty (a : MainAnn) : Bool :=
  a.id.isSome || a.sourceFile.isSome || a.startOffset.isSome || a.endOffset.isSome ||
  a.selectedText.isSome || a.content.isSome || a.createdAt.isSome || a.updatedAt.isSome

/-- parseInt(value) over an already-trimmed value: optional sign then a
nonempty digit prefix; NaN (no digits) is modelled as none. -/
def jsParseIntOpt (s : Str) : Option Int :=
  let s1 := s.dropWhile wsChar
  match s1 with
  | '-' :: r => (parseNatPre r).map (fun p => -(p.1 : Int))
  | _ => (parseNatPre s1).map (fun p => (p.1 : Int))

/-- The line regex of parseAnnotationFile, lazy-key colon split with a
mandatory nonempty value: the first colon at index at least 1 whose
remainder is nonempty; the greedy whitespace after the colon is capped
so that the value keeps at least one character; both halves trimmed. -/
def mainColonAux : Str → Nat → Option Nat
  | [], _ => none
  | c :: t, k => if c = ':' ∧ 1 ≤ k ∧ t ≠ [] then some k else mainColonAux t (k + 1)

def mainLineKV (l : Str) : Option (Str × Str) :=
  match mainColonAux l 0 with
  | none => none
  | some k =>
    let rest := l.drop (k + 1)
    let w := (rest.takeWhile wsChar).length
    some (jsTrim (l.take k), jsTrim (rest.drop (min w (rest.length - 1))))

/-- Fold state of parseAnnotationFile. -/
structure PState where
  inFM : Bool := false
  cur : MainAnn := {}
  contentLines : List Str := []
  foundFirst : Bool := false
  acc : List MainAnn := []

def flushCur (c : MainAnn) (ls : List Str) : MainAnn :=
  { c with content := some (jsTrim (List.intercalate ['\n'] ls)) }

def applyKV (c : MainAnn) (k v : Str) : MainAnn :=
  if k = "id".toList then { c with id := some v }
  else if k = "sourceFile".toList then { c with sourceFile := some v }
  else if k = "startOffset".toList then { c with startOffset := jsParseIntOpt v }
  else if k = "endOffset".toList then { c with endOffset := jsParseIntOpt v }
  else if k = "selectedText".toList then { c with selectedText := some v }
  else if k = "createdAt".toList then { c with createdAt := jsParseIntOpt v }
  else if k = "updatedAt".toList then { c with updatedAt := jsParseIntOpt v }
  else c

def parseLine (st : PState) (line : Str) : PState :=
  if line = Codec.dash3 then
    if !st.inFM then
      let st' :=
        if curNonempty st.cur then
          { st with acc := st.acc ++ [flushCur st.cur st.contentLines]
                    cur := {}, contentLines := [] }
        else st
      { st' with inFM := true }
    else { st with inFM := false, foundFirst := true }
  else if st.inFM then
    match mainLineKV line with
    | none => st
    | some (k, v) => { st with cur := applyKV st.cur k v }
  else if ¬(jsTrim line).isEmpty ∧ st.foundFirst then
    { st with contentLines := st.contentLines ++ [line] }
  else st

/-- src/main.ts: parseAnnotationFile (the line-based frontmatter state
machine). -/
def parseAnnotationFile (content : Str) : List MainAnn :=
  let st := (splitNl content).foldl parseLine {}
  if curNonempty st.cur then st.acc ++ [flushCur st.cur st.contentLines] else st.acc

def undefStr : Str := "undefined".toList

def optStr (o : Option Str) : Str := o.getD undefStr

/-- JS decimal printing of an integer. -/
def intToStr (i : Int) : Str :=
  if i < 0 then '-' :: natToStr i.natAbs else natToStr i.toNat

def optInt (o : Option Int) : Str :=
  match o with
  | some i => intToStr i
  | none => undefStr

/-- One block of formatAnnotationFile; none models the TypeError thrown
when selectedText is undefined (the only field on which a method is
called). -/
def formatOne (a : MainAnn) : Option Str :=
  match a.selectedText with
  | none => none
  | some st =>
    some ("---\nid: ".toList ++ optStr a.id
      ++ "\nsourceFile: ".toList ++ optStr a.sourceFile
      ++ "\nstartOffset: ".toList ++ optInt a.startOffset
      ++ "\nendOffset: ".toList ++ optInt a.endOffset
      ++ "\nselectedText: ".toList ++ st.map (fun c => if c = '\n' then ' ' else c)
      ++ "\ncreatedAt: ".toList ++ optInt a.createdAt
      ++ "\nupdatedAt: ".toList ++ optInt a.updatedAt
      ++ "\n---\n\n".toList ++ optStr a.content ++ "\n\n".toList)

/-- src/main.ts: formatAnnotationFile (header plus one block per
record). -/
def formatAnnotationFile (anns : List MainAnn) (sourceFile : Str) : Option Str :=
  (anns.mapM formatOne).map (fun blocks =>
    "# 批注: ".toList ++ sourceFile ++ "\n\n> 源文件: [[".toList ++ sourceFile
      ++ "]]\n\n".toList ++ blocks.flatten)

def lastIdxOf (c : Char) : Str → Option Nat
  | [] => none
  | d :: t =>
    match lastIdxOf c t with
    | some k => some (k + 1)
    | none => if d = c then some 0 else none

/-- Index of the last path separator, slash or backslash
(max of the two lastIndexOf results, -1 meaning absent). -/
def sepIdx (s : Str) : Option Nat :=
  match lastIdxOf '/' s, lastIdxOf '\\' s with
  | none, none => none
  | some a, none => some a
  | none, some b => some b
  | some a, some b => some (max a b)

def fileNameOf (s : Str) : Str :=
  match sepIdx s with
  | none => s
  | some k => s.drop (k + 1)

/-- The base-name computation of getAnnotationFilePath: final path
segment, extension stripped only when the last dot has positive index. -/
def fileBaseName (s : Str) : Str :=
  let fn := fileNameOf s
  match lastIdxOf '.' fn with
  | some d => if 0 < d then fn.take d else fn
  | none => fn

/-- src/main.ts: getAnnotationFilePath. -/
def getAnnotationFilePath (folder : Str) (sourceFile : Str) : Str :=
  folder ++ '/' :: fileBaseName sourceFile ++ "-annotation.md".toList

/-- Store state: the vault (path to text blob) and the session cache
(source path to record list). -/
structure StoreState where
  vault : List (Str × Str)
  cache : List (Str × List MainAnn)
deriving DecidableEq

inductive StoreErr where
  | fileNotFound
  | recNotFound
  | writeFailed
  | formatCrash
deriving DecidableEq

/-- src/main.ts: saveAnnotation.  The underlying write (vault.modify or
vault.create) either succeeds (writeOk) or throws; the cache is written
only on the success path, after the write.  The formatCrash error
models the TypeError cases (undefined sourceFile or selectedText). -/
def saveAnnotationM (folder : Str) (writeOk : Bool) (st : StoreState) (a : MainAnn) :
    Except StoreErr Unit × StoreState :=
  match a.sourceFile with
  | none => (.error .formatCrash, st)
  | some sf =>
    let path := getAnnotationFilePath folder sf
    let existing :=
      (match alistGet st.vault path with
       | some c => parseAnnotationFile c
       | none => []) ++ [a]
    match formatAnnotationFile existing sf with
    | none => (.error .formatCrash, st)
    | some fc =>
      if writeOk then
        (.ok (), ⟨alistSet st.vault path fc, alistSet st.cache sf existing⟩)
      else (.error .writeFailed, st)

/-- src/main.ts: updateAnnotation.  Load, find by id (strict equality,
also matching two undefined ids), bump updatedAt, replace, write, and
only then refresh the cache entry.  now is the ambient Date.now(). -/
def updateAnnotationM (folder : Str) (writeOk : Bool) (now : Int) (st : StoreState)
    (a : MainAnn) : Except StoreErr Unit × StoreState :=
  match a.sourceFile with
  | none => (.error .formatCrash, st)
  | some sf =>
    let path := getAnnotationFilePath folder sf
    match alistGet st.vault path with
    | none => (.error .fileNotFound, st)
    | some content =>
      let anns := parseAnnotationFile content
      match jsFindIndex (fun x => x.id == a.id) anns with
      | none => (.error .recNotFound, st)
      | some i =>
        let a' := { a with updatedAt := some now }
        let anns' := anns.set i a'
        match formatAnnotationFile anns' sf with
        | none => (.error .formatCrash, st)
        | some fc =>
          if writeOk then
            (.ok (), ⟨alistSet st.vault path fc, alistSet st.cache sf anns'⟩)
          else (.error .writeFailed, st)

/-- src/main.ts: deleteAnnotation.  Load, filter out the id, delete the
whole blob when no record remains, otherwise rewrite it; refresh the
cache only after the storage operation succeeded. -/
def deleteAnnotationM (folder : Str) (writeOk : Bool) (st : StoreState)
    (annotationId sf : Str) : Except StoreErr Unit × StoreState :=
  let path := getAnnotationFilePath folder sf
  match alistGet st.vault path with
  | none => (.error .fileNotFound, st)
  | some content =>
    let anns := (parseAnnotationFile content).filter (fun x => !(x.id == some annotationId))
    if anns.isEmpty then
      if writeOk then (.ok (), ⟨alistRemove st.vault path, alistSet st.cache sf anns⟩)
      else (.error .writeFailed, st)
    else
      match formatAnnotationFile anns sf with
      | none => (.error .formatCrash, st)
      | some fc =>
        if writeOk then (.ok (), ⟨alistSet st.vault path fc, alistSet st.cache sf anns⟩)
        else (.error .writeFailed, st)

def replaceFirst (p : MainAnn → Bool) (a : MainAnn) : List MainAnn → List MainAnn
  | [] => []
  | x :: t => if p x then a :: t else x :: replaceFirst p a t

/-- src/main.ts: the edit handler of showAnnotationTooltip composed
with updateAnnotation.  The handler looks the record up in the session
cache and mutates that very object (annotation.content = newContent)
before calling updateAnnotation, which in turn mutates its updatedAt
before the write; both mutations are visible through the cache even
when the write later throws.  Object identity of the found record is
modelled by replacing the first record with the matching id. -/
def editTooltipFlow (folder : Str) (writeOk : Bool) (now : Int) (st : StoreState)
    (activeFile annotationId newContent : Str) : Except StoreErr Unit × StoreState :=
  let anns := (alistGet st.cache activeFile).getD []
  match anns.find? (fun x => x.id == some annotationId) with
  | none => (.ok (), st)
  | some a =>
    let a1 := { a with content := some newContent }
    let anns1 := replaceFirst (fun x => x.id == some annotationId) a1 anns
    let st1 : StoreState := { st with cache := alistSet st.cache activeFile anns1 }
    match a1.sourceFile with
    | none => (.error .formatCrash, st1)
    | some sf =>
      let path := getAnnotationFilePath folder sf
      match alistGet st1.vault path with
      | none => (.error .fileNotFound, st1)
      | some content =>
        let anns2 := parseAnnotationFile content
        match jsFindIndex (fun x => x.id == a1.id) anns2 with
        | none => (.error .recNotFound, st1)
        | some i =>
          let a2 := { a1 with updatedAt := some now }
          let anns1b := replaceFirst (fun x => x.id == some annotationId) a2 anns1
          let st2 : StoreState := { st1 with cache := alistSet st1.cache activeFile anns1b }
          let anns2' := anns2.set i a2
          match formatAnnotationFile anns2' sf with
          | none => (.error .formatCrash, st2)
          | some fc =>
            if writeOk then
              (.ok (), ⟨alistSet st2.vault path fc, alistSet st2.cache sf anns2'⟩)
            else (.error .writeFailed, st2)

end MainP

namespace FileUtils

/-- src/unnamed/part_002: getAnnotationFilePath over a TFile, whose
basename Obsidian precomputes; normalizePath is modelled as the
identity on the already-normal paths built here. -/
def fuGetAnnotationFilePath (folder baseName : Str) : Str :=
  folder ++ '/' :: baseName ++ "-annotation.md".toList

inductive FuErr where
  | writeFailed
deriving DecidableEq

/-- src/unnamed/part_002: loadAnnotations (missing blob or read error
yield the empty list; now is the ambient clock fed to the codec). -/
def fuLoadAnnotations (now : Str) (vault : List (Str × Str)) (folder baseName : Str) :
    List Codec.Annotation :=
  match alistGet vault (fuGetAnnotationFilePath folder baseName) with
  | none => []
  | some c => Codec.parseAnnotations now c

/-- src/unnamed/part_002: saveAnnotations (delete the blob when the
list is empty, otherwise serialize and write). -/
def fuSaveAnnotations (writeOk : Bool) (vault : List (Str × Str)) (folder baseName : Str)
    (anns : List Codec.Annotation) : Except FuErr (List (Str × Str)) :=
  let path := fuGetAnnotationFilePath folder baseName
  if anns.isEmpty then
    if (alistGet vault path).isSome then
      if writeOk then .ok (alistRemove vault path) else .error .writeFailed
    else .ok vault
  else
    if writeOk then .ok (alistSet vault path (Codec.serializeAnnotations anns))
    else .error .writeFailed

/-- src/unnamed/part_002: updateAnnotation — load, find by id, and,
only when found, replace and save; an absent id resolves successfully
without touching the vault. -/
def fuUpdateAnnotation (now : Str) (writeOk : Bool) (vault : List (Str × Str))
    (folder baseName : Str) (a : Codec.Annotation) : Except FuErr (List (Str × Str)) :=
  let anns := fuLoadAnnotations now vault folder baseName
  match jsFindIndex (fun x => x.annotation_id == a.annotation_id) anns with
  | none => .ok vault
  | some i => fuSaveAnnotations writeOk vault folder baseName (anns.set i a)

end FileUtils

/-! ## General helper lemmas -/

theorem jsFindIndex_eq_none {α : Type} (p : α → Bool) (l : List α)
    (h : ∀ x ∈ l, p x = false) : jsFindIndex p l = none := by
  induction l with
  | nil => rfl
  | cons x t ih =>
    simp only [jsFindIndex, h x (List.mem_cons_self x t)]
    simp only [Bool.false_eq_true, if_false]
    rw [ih (fun y hy => h y (List.mem_cons_of_mem x hy))]
    rfl

theorem alistGet_set_self {α : Type} (m : List (Str × α)) (k : Str) (v : α) :
    alistGet (alistSet m k v) k = some v := by
  induction m with
  | nil => simp [alistSet, alistGet]
  | cons p t ih =>
    by_cases h : p.1 = k
    · simp [alistSet, alistGet, h]
    · simp [alistSet, alistGet, h, ih]

/-! ## C7 — record creation -/

/-- C7 counterexample: called with an empty selectedText,
createAnnotation does not fail — it returns a record whose
selected_text is the empty string, refuting the failure half of the
claim. -/
theorem C7_counterexample :
    Codec.createAnnotation ("anno1".toList) ("2024-01-01T00:00:00.000Z".toList) []
        .empty ("note".toList)
      = { annotation_id := "anno1".toList
          selected_text := []
          position := .empty
          created := "2024-01-01T00:00:00.000Z".toList
          updated := "2024-01-01T00:00:00.000Z".toList
          content := "note".toList } := rfl

/-- C7 (amended): createAnnotation sets createdAt equal to updatedAt
(one shared now value), but performs no emptiness check on
selectedText: for every input, including the empty string, it returns a
record carrying exactly that selected_text (empty selections are
rejected by callers, not by create). -/
theorem C7_create_timestamps_no_validation (genId now s : Str)
    (p : Codec.PosVal) (c : Str) :
    (Codec.createAnnotation genId now s p c).created
        = (Codec.createAnnotation genId now s p c).updated ∧
      (Codec.createAnnotation genId now s p c).selected_text = s :=
  ⟨rfl, rfl⟩

/-! ## C10 — annotation blob path collision -/

/-- C10: the annotation blob path depends only on the configured folder
and the base file name (final path segment, extension stripped when the
last dot has positive index): any two source paths with equal base
names are mapped to the same backing blob path. -/
theorem C10_path_collision (folder s1 s2 : Str)
    (h : MainP.fileBaseName s1 = MainP.fileBaseName s2) :
    MainP.getAnnotationFilePath folder s1 = MainP.getAnnotationFilePath folder s2 := by
  simp [MainP.getAnnotationFilePath, h]

/-- C10 witness: two distinct full paths with the same base name share
one backing blob path. -/
theorem C10_path_collision_witness :
    MainP.fileBaseName ("a/Note.md".toList) = MainP.fileBaseName ("b/Note.md".toList)
      ∧ ("a/Note.md".toList : Str) ≠ ("b/Note.md".toList : Str)
      ∧ MainP.getAnnotationFilePath ("Annotations".toList) ("a/Note.md".toList)
          = MainP.getAnnotationFilePath ("Annotations".toList) ("b/Note.md".toList) :=
  ⟨by decide, by decide,
    C10_path_collision ("Annotations".toList) ("a/Note.md".toList) ("b/Note.md".toList)
      (by decide)⟩

/-! ## C8 — rendered-surface capture -/

/-- C8 counterexample: a collapsed (zero-length) selection with one
range does not make getPositionFromDOMSelection return null — a
position descriptor is produced, refuting the collapsed half of the
claim. -/
theorem C8_counterexample :
    ((⟨[⟨[0], 2, [0], 2⟩]⟩ : Loc.Selection).ranges.head?.map Loc.DomRange.collapsed
        = some true)
      ∧ Loc.getPositionFromDOMSelection ("A.md".toList)
          (.elem ("div".toList) [] [(("data-line".toList), "3".toList)]
            (.cons (.text ("hello".toList)) .nil))
          ⟨[⟨[0], 2, [0], 2⟩]⟩
        = some ⟨"A.md".toList, 2, 3⟩ := by decide

/-- C8 (amended): position capture from the rendered surface returns
null exactly when the selection has no ranges (rangeCount is zero); a
collapsed range still produces a position descriptor, since the
function never consults the range's endpoints. -/
theorem C8_null_iff_no_ranges (fp : Str) (body : Hl.DNode) (sel : Loc.Selection) :
    (Loc.getPositionFromDOMSelection fp body sel).isSome = !sel.ranges.isEmpty := by
  cases sel with
  | mk rs => cases rs <;> rfl

/-! ## C3 — whitespace-tolerant anchoring (code bug) -/

/-- C3: evaluation at the spec's own example.  The leaf text
hello-newline-world matches the target hello-space-world after
whitespace collapsing (so the claim's hypothesis holds), yet
injectHighlightIntoElement returns the tree unchanged with no marker
injected: the retry recovers the original bounds with
indexOf(targetText.trim()), which fails on any reflowed text, so the
whitespace-collapsed retry never marks such a leaf. -/
theorem C3_whitespace_retry_never_marks :
    hasSub (Hl.stripWs ("hello world".toList)) (Hl.stripWs ("hello\nworld".toList)) = true
      ∧ Hl.injectHighlightIntoElement
          (.elem ("div".toList) [] [] (.cons (.text ("hello\nworld".toList)) .nil))
          ⟨"id3".toList, "hello world".toList, .empty, "c".toList, "u".toList, "n".toList⟩
          ("yellow".toList)
        = .elem ("div".toList) [] [] (.cons (.text ("hello\nworld".toList)) .nil)
      ∧ Hl.countHighlights
          (Hl.injectHighlightIntoElement
            (.elem ("div".toList) [] [] (.cons (.text ("hello\nworld".toList)) .nil))
            ⟨"id3".toList, "hello world".toList, .empty, "c".toList, "u".toList, "n".toList⟩
            ("yellow".toList)) ("id3".toList) = 0 := by decide

/-! ## C9 — update not-found -/

/-- C9 counterexample: in the file-utils store variant, updating a
record whose id is absent from the backing blob does not fail — the
promise resolves (ok) with the vault unchanged, refuting the claim that
the update fails with NotFound. -/
theorem C9_counterexample :
    (FileUtils.fuLoadAnnotations ("T".toList)
        [(("_annotations/A-annotation.md".toList),
          Codec.serializeAnnotations [⟨"a1".toList, "xy".toList, .empty,
            "c".toList, "u".toList, "body".toList⟩])]
        ("_annotations".toList) ("A".toList)).map Codec.Annotation.annotation_id
      = ["a1".toList]
    ∧ FileUtils.fuUpdateAnnotation ("T".toList) true
        [(("_annotations/A-annotation.md".toList),
          Codec.serializeAnnotations [⟨"a1".toList, "xy".toList, .empty,
            "c".toList, "u".toList, "body".toList⟩])]
        ("_annotations".toList) ("A".toList)
        ⟨"zz".toList, "xy".toList, .empty, "c".toList, "u".toList, "body".toList⟩
      = .ok [(("_annotations/A-annotation.md".toList),
          Codec.serializeAnnotations [⟨"a1".toList, "xy".toList, .empty,
            "c".toList, "u".toList, "body".toList⟩])] := by decide

/-- C9 (amended): when the record id does not occur in the backing
blob, the coordinator store update (src/main.ts) throws its
record-not-found error and leaves the whole state (vault and cache)
unchanged, while the file-utils store update (src/unnamed/part_002)
leaves the vault unchanged but resolves successfully — a silent no-op
rather than a NotFound failure. -/
theorem C9_update_notfound_amended
    (folder sf blob now : Str) (nowI : Int) (writeOk : Bool)
    (st : MainP.StoreState) (a : MainP.MainAnn)
    (vault : List (Str × Str)) (baseName : Str) (fa : Codec.Annotation)
    (hsf : a.sourceFile = some sf)
    (hblob : alistGet st.vault (MainP.getAnnotationFilePath folder sf) = some blob)
    (hids : ∀ x ∈ MainP.parseAnnotationFile blob, (x.id == a.id) = false)
    (hfids : ∀ x ∈ FileUtils.fuLoadAnnotations now vault folder baseName,
      (x.annotation_id == fa.annotation_id) = false) :
    MainP.updateAnnotationM folder writeOk nowI st a = (.error .recNotFound, st)
      ∧ FileUtils.fuUpdateAnnotation now writeOk vault folder baseName fa = .ok vault := by
  constructor
  · unfold MainP.updateAnnotationM
    rw [hsf]
    simp only [hblob, jsFindIndex_eq_none _ _ hids]
  · unfold FileUtils.fuUpdateAnnotation
    simp only [jsFindIndex_eq_none _ _ hfids]

/-- C9 witness: the amended theorem applied at a concrete state (the
main-store blob holds one record with id r1; the updated record's id is
zz, absent from both stores). -/
theorem C9_update_notfound_witness :
    MainP.updateAnnotationM ("Annotations".toList) true 9
        ⟨[(("Annotations/A-annotation.md".toList), "---\nid: r1\n---\n\nx\n\n".toList)], []⟩
        { id := some ("zz".toList), sourceFile := some ("A.md".toList),
          startOffset := some 0, endOffset := some 5,
          selectedText := some ("hello".toList), content := some ("old".toList),
          createdAt := some 5, updatedAt := some 5 }
      = (.error .recNotFound,
         ⟨[(("Annotations/A-annotation.md".toList), "---\nid: r1\n---\n\nx\n\n".toList)], []⟩)
    ∧ FileUtils.fuUpdateAnnotation ("T".toList) true [] ("F".toList) ("A".toList)
        ⟨"zz".toList, "xy".toList, .empty, "c".toList, "u".toList, "b".toList⟩ = .ok [] :=
  C9_update_notfound_amended ("Annotations".toList) ("A.md".toList)
    ("---\nid: r1\n---\n\nx\n\n".toList) ("T".toList) 9 true
    ⟨[(("Annotations/A-annotation.md".toList), "---\nid: r1\n---\n\nx\n\n".toList)], []⟩
    { id := some ("zz".toList), sourceFile := some ("A.md".toList),
      startOffset := some 0, endOffset := some 5,
      selectedText := some ("hello".toList), content := some ("old".toList),
      createdAt := some 5, updatedAt := some 5 }
    [] ("A".toList) ⟨"zz".toList, "xy".toList, .empty, "c".toList, "u".toList, "b".toList⟩
    rfl (by decide) (by decide) (by decide)

/-! ## C2 — write-failure atomicity -/

theorem replaceFirst_find {p : MainP.MainAnn → Bool} {l : List MainP.MainAnn}
    {a : MainP.MainAnn} (b : MainP.MainAnn)
    (h : l.find? p = some a) (hb : p b = true) :
    (MainP.replaceFirst p b l).find? p = some b := by
  induction l with
  | nil => simp [List.find?] at h
  | cons x t ih =>
    by_cases hpx : p x = true
    · simp [MainP.replaceFirst, hpx, List.find?_cons_of_pos _ hb]
    · rw [List.find?_cons_of_neg _ hpx] at h
      have hpx2 : p x = false := by simpa using hpx
      simp [MainP.replaceFirst, hpx2, List.find?_cons_of_neg _ hpx, ih h]

/-- C2 counterexample: with one cached record (content old) whose blob
is present, a failing write during the tooltip edit flow leaves the
state changed: the cached record already carries the new content even
though the operation returned the write failure, refuting the claim
that the cache (including its record objects) is left in its prior
state. -/
theorem C2_counterexample :
    (MainP.editTooltipFlow ("Annotations".toList) false 9
        ⟨[(("Annotations/A-annotation.md".toList), "---\nid: r1\n---\n\nx\n\n".toList)],
         [(("A.md".toList),
           [{ id := some ("r1".toList), sourceFile := some ("A.md".toList),
              selectedText := some ("t".toList), content := some ("old".toList) }])]⟩
        ("A.md".toList) ("r1".toList) ("new".toList)).1 = .error .writeFailed
    ∧ (MainP.editTooltipFlow ("Annotations".toList) false 9
        ⟨[(("Annotations/A-annotation.md".toList), "---\nid: r1\n---\n\nx\n\n".toList)],
         [(("A.md".toList),
           [{ id := some ("r1".toList), sourceFile := some ("A.md".toList),
              selectedText := some ("t".toList), content := some ("old".toList) }])]⟩
        ("A.md".toList) ("r1".toList) ("new".toList)).2
      ≠ ⟨[(("Annotations/A-annotation.md".toList), "---\nid: r1\n---\n\nx\n\n".toList)],
         [(("A.md".toList),
           [{ id := some ("r1".toList), sourceFile := some ("A.md".toList),
              selectedText := some ("t".toList), content := some ("old".toList) }])]⟩
    ∧ ((alistGet (MainP.editTooltipFlow ("Annotations".toList) false 9
          ⟨[(("Annotations/A-annotation.md".toList), "---\nid: r1\n---\n\nx\n\n".toList)],
           [(("A.md".toList),
             [{ id := some ("r1".toList), sourceFile := some ("A.md".toList),
                selectedText := some ("t".toList), content := some ("old".toList) }])]⟩
          ("A.md".toList) ("r1".toList) ("new".toList)).2.cache
          ("A.md".toList)).getD []).map MainP.MainAnn.content
        = [some ("new".toList)] := by decide

/-- C2 (amended): the map-level cache bindings are indeed updated only
after a successful write — a failing write in saveAnnotation,
updateAnnotation or deleteAnnotation leaves the entire state (vault and
cache) unchanged; but the tooltip edit handler mutates the record
object held by the cache before the write (content, then updatedAt
inside updateAnnotation), so after a failing write the cached record
already reflects the intended new content. -/
theorem C2_write_failure_amended
    (folder : Str) (st : MainP.StoreState) (a : MainP.MainAnn) (nowI : Int)
    (annId sf activeFile newContent : Str)
    (anns : List MainP.MainAnn) (a0 : MainP.MainAnn)
    (h1 : alistGet st.cache activeFile = some anns)
    (h2 : anns.find? (fun x => x.id == some annId) = some a0) :
    (MainP.saveAnnotationM folder false st a).2 = st
    ∧ (MainP.updateAnnotationM folder false nowI st a).2 = st
    ∧ (MainP.deleteAnnotationM folder false st annId sf).2 = st
    ∧ (((alistGet (MainP.editTooltipFlow folder false nowI st activeFile annId
          newContent).2.cache activeFile).getD []).find?
            (fun x => x.id == some annId)).map MainP.MainAnn.content
        = some (some newContent) := by
  have hp0 := List.find?_some h2
  have hp1 : (fun (x : MainP.MainAnn) => x.id == some annId)
      { a0 with content := some newContent } = true := hp0
  have hfind1 := replaceFirst_find { a0 with content := some newContent } h2 hp1
  have hp2 : (fun (x : MainP.MainAnn) => x.id == some annId)
      { a0 with content := some newContent, updatedAt := some nowI } = true := hp0
  have hfind2 := replaceFirst_find
    { a0 with content := some newContent, updatedAt := some nowI } hfind1 hp2
  refine ⟨?_, ?_, ?_, ?_⟩
  · unfold MainP.saveAnnotationM
    repeat' split
    all_goals simp only []
    all_goals try (repeat' split)
    all_goals simp_all
  · unfold MainP.updateAnnotationM
    repeat' split
    all_goals simp only []
    all_goals try (repeat' split)
    all_goals simp_all
  · unfold MainP.deleteAnnotationM
    repeat' split
    all_goals simp only []
    all_goals try (repeat' split)
    all_goals simp_all
  · unfold MainP.editTooltipFlow
    rw [h1]
    simp only [Option.getD_some, h2]
    repeat' split
    all_goals simp only []
    all_goals simp_all [alistGet_set_self]

/-- C2 witness: the amended theorem applied at a concrete state. -/
theorem C2_write_failure_witness :
    (MainP.saveAnnotationM ("Annotations".toList) false
        ⟨[(("Annotations/A-annotation.md".toList), "---\nid: r1\n---\n\nx\n\n".toList)],
         [(("A.md".toList),
           [{ id := some ("r1".toList), sourceFile := some ("A.md".toList),
              selectedText := some ("t".toList), content := some ("old".toList) }])]⟩
        { id := some ("r2".toList), sourceFile := some ("A.md".toList),
          selectedText := some ("s".toList), content := some ("c".toList) }).2
      = ⟨[(("Annotations/A-annotation.md".toList), "---\nid: r1\n---\n\nx\n\n".toList)],
         [(("A.md".toList),
           [{ id := some ("r1".toList), sourceFile := some ("A.md".toList),
              selectedText := some ("t".toList), content := some ("old".toList) }])]⟩
    ∧ (MainP.updateAnnotationM ("Annotations".toList) false 9
        ⟨[(("Annotations/A-annotation.md".toList), "---\nid: r1\n---\n\nx\n\n".toList)],
         [(("A.md".toList),
           [{ id := some ("r1".toList), sourceFile := some ("A.md".toList),
              selectedText := some ("t".toList), content := some ("old".toList) }])]⟩
        { id := some ("r2".toList), sourceFile := some ("A.md".toList),
          selectedText := some ("s".toList), content := some ("c".toList) }).2
      = ⟨[(("Annotations/A-annotation.md".toList), "---\nid: r1\n---\n\nx\n\n".toList)],
         [(("A.md".toList),
           [{ id := some ("r1".toList), sourceFile := some ("A.md".toList),
              selectedText := some ("t".toList), content := some ("old".toList) }])]⟩
    ∧ (MainP.deleteAnnotationM ("Annotations".toList) false
        ⟨[(("Annotations/A-annotation.md".toList), "---\nid: r1\n---\n\nx\n\n".toList)],
         [(("A.md".toList),
           [{ id := some ("r1".toList), sourceFile := some ("A.md".toList),
              selectedText := some ("t".toList), content := some ("old".toList) }])]⟩
        ("r1".toList) ("A.md".toList)).2
      = ⟨[(("Annotations/A-annotation.md".toList), "---\nid: r1\n---\n\nx\n\n".toList)],
         [(("A.md".toList),
           [{ id := some ("r1".toList), sourceFile := some ("A.md".toList),
              selectedText := some ("t".toList), content := some ("old".toList) }])]⟩
    ∧ (((alistGet (MainP.editTooltipFlow ("Annotations".toList) false 9
          ⟨[(("Annotations/A-annotation.md".toList), "---\nid: r1\n---\n\nx\n\n".toList)],
           [(("A.md".toList),
             [{ id := some ("r1".toList), sourceFile := some ("A.md".toList),
                selectedText := some ("t".toList), content := some ("old".toList) }])]⟩
          ("A.md".toList) ("r1".toList) ("new".toList)).2.cache
          ("A.md".toList)).getD []).find?
            (fun x => x.id == some ("r1".toList))).map MainP.MainAnn.content
        = some (some ("new".toList)) :=
  C2_write_failure_amended ("Annotations".toList)
    ⟨[(("Annotations/A-annotation.md".toList), "---\nid: r1\n---\n\nx\n\n".toList)],
     [(("A.md".toList),
       [{ id := some ("r1".toList), sourceFile := some ("A.md".toList),
          selectedText := some ("t".toList), content := some ("old".toList) }])]⟩
    { id := some ("r2".toList), sourceFile := some ("A.md".toList),
      selectedText := some ("s".toList), content := some ("c".toList) }
    9 ("r1".toList) ("A.md".toList) ("A.md".toList) ("new".toList)
    [{ id := some ("r1".toList), sourceFile := some ("A.md".toList),
       selectedText := some ("t".toList), content := some ("old".toList) }]
    { id := some ("r1".toList), sourceFile := some ("A.md".toList),
      selectedText := some ("t".toList), content := some ("old".toList) }
    (by decide) (by decide)

/-! ## Highlighter lemmas (C4, C5, C6) -/

namespace Hl

/-- Simultaneous structural induction over the mutual tree/forest
types, packaged from the auto-generated recursors. -/
theorem dtree_mutual_ind (motiveN : DNode → Prop) (motiveF : DForest → Prop)
    (htext : ∀ s, motiveN (.text s))
    (helem : ∀ tag cls attrs kids, motiveF kids → motiveN (.elem tag cls attrs kids))
    (hnil : motiveF .nil)
    (hcons : ∀ n f, motiveN n → motiveF f → motiveF (.cons n f)) :
    (∀ n, motiveN n) ∧ (∀ f, motiveF f) :=
  ⟨fun n => @DNode.rec motiveN motiveF htext helem hnil hcons n,
   fun f => @DForest.rec motiveN motiveF htext helem hnil hcons f⟩

theorem textF_append : ∀ (f g : DForest), textF (f.append g) = textF f ++ textF g
  | .nil, g => by simp [DForest.append, textF]
  | .cons n f, g => by simp [DForest.append, textF, textF_append f g]

theorem textF_ofList (l : List DNode) : textF (ofList l) = (l.map textN).flatten := by
  induction l with
  | nil => simp [ofList, textF]
  | cons x t ih => simp [ofList, textF, ih]

theorem textF_ofList_emptyif (x : Str) (rest : List DNode) :
    textF (ofList ((if x.isEmpty then [] else [DNode.text x]) ++ rest))
      = x ++ textF (ofList rest) := by
  by_cases h : x.isEmpty
  · simp [h, List.isEmpty_iff.mp h]
  · simp [h, ofList, textF, textN]

theorem textF_ofList_emptyone (x : Str) :
    textF (ofList (if x.isEmpty then [] else [DNode.text x])) = x := by
  by_cases h : x.isEmpty
  · simp [h, List.isEmpty_iff.mp h, ofList, textF]
  · simp [h, ofList, textF, textN]

theorem textF_wrapFragment (s : Str) (i len : Nat) (id color : Str) :
    textF (wrapFragment s i len id color) = s := by
  have key : s.take i ++ ((s.drop i).take len ++ (s.drop i).drop len) = s := by
    rw [List.take_append_drop, List.take_append_drop]
  unfold wrapFragment mkHighlightSpan
  simp only []
  rw [List.append_assoc, textF_ofList_emptyif]
  show s.take i ++ textF (ofList (_ :: _)) = s
  simp only [ofList, textF, textN, List.append_eq, List.nil_append, List.append_nil]
  rw [textF_ofList_emptyone]
  exact key

theorem textF_findWrap (tgt id color : Str) :
    (∀ n, ∀ pHL inCode frag, findWrapN tgt id color pHL inCode n = some frag →
      textF frag = textN n)
    ∧ (∀ f, ∀ pHL inCode f', findWrapF tgt id color pHL inCode f = some f' →
      textF f' = textF f) := by
  refine dtree_mutual_ind _ _ ?_ ?_ ?_ ?_
  · intro s pHL inCode frag h
    unfold findWrapN at h
    split at h
    · exact absurd h (by simp)
    · split at h
      · cases h
        exact (textF_wrapFragment _ _ _ _ _).trans rfl
      · exact absurd h (by simp)
  · intro tag cls attrs kids ih pHL inCode frag h
    unfold findWrapN at h
    split at h
    next kids' heq =>
      cases h
      simpa [textF, textN] using ih _ _ _ heq
    · exact absurd h (by simp)
  · intro pHL inCode f' h
    exact absurd h (by simp [findWrapF])
  · intro n f ihn ihf pHL inCode f' h
    unfold findWrapF at h
    split at h
    next frag heq =>
      cases h
      rw [textF_append, ihn _ _ _ heq]
      rfl
    next heq =>
      cases hf : findWrapF tgt id color pHL inCode f with
      | none => rw [hf] at h; exact absurd h (by simp)
      | some g =>
        rw [hf] at h
        cases h
        simp [textF, ihf _ _ _ hf]

theorem textContent_highlightText (t : DNode) (a : Codec.Annotation) (color : Str) :
    textContent (highlightText t a color) = textContent t := by
  unfold highlightText
  simp only []
  split
  · rfl
  · split
    · rfl
    · split
      · rfl
      · split
        next kids' heq =>
          simpa [textContent, textN] using (textF_findWrap _ _ _).2 _ _ _ _ heq
        · rfl

theorem textF_mergeTexts : ∀ (f : DForest), textF (mergeTexts f) = textF f
  | .nil => rfl
  | .cons (.text s) f => by
    by_cases hs : s.isEmpty
    · have hs' : s = [] := List.isEmpty_iff.mp hs
      simp [mergeTexts, hs, textF, textN, hs', textF_mergeTexts f]
    · simp only [mergeTexts, hs, Bool.false_eq_true, if_false]
      have ih := textF_mergeTexts f
      cases hm : mergeTexts f with
      | nil =>
        rw [hm] at ih
        simp only [textF] at ih
        simp [textF, ← ih]
      | cons m g =>
        cases m with
        | text s2 =>
          rw [hm] at ih
          simp only [textF, textN] at ih ⊢
          rw [← ih]
          simp
        | elem tag2 cls2 attrs2 kids2 =>
          rw [hm] at ih
          simp only [textF] at ih ⊢
          rw [ih]
  | .cons (.elem tag cls attrs kids) f => by
    simp [mergeTexts, textF, textF_mergeTexts f]

theorem textF_norm :
    (∀ n, textN (normN n) = textN n) ∧ (∀ f, textF (mapNorm f) = textF f) := by
  refine dtree_mutual_ind _ _ ?_ ?_ ?_ ?_
  · intro s; rfl
  · intro tag cls attrs kids ih
    simp [normN, textN, textF_mergeTexts, ih]
  · rfl
  · intro n f ihn ihf
    simp [mapNorm, textF, ihn, ihf]

theorem textF_rmUnw (id : Str) :
    (∀ n, textF (rmUnwN id n) = textN n) ∧ (∀ f, textF (rmUnwF id f) = textF f) := by
  refine dtree_mutual_ind _ _ ?_ ?_ ?_ ?_
  · intro s; simp [rmUnwN, textF]
  · intro tag cls attrs kids ih
    unfold rmUnwN
    split
    · simpa [textN] using ih
    · split <;> simp [textF, textN, textF_mergeTexts, (textF_norm).2, ih]
  · rfl
  · intro n f ihn ihf
    simp [rmUnwF, textF_append, textF, ihn, ihf]

theorem textContent_removeHighlight (t : DNode) (id : Str) :
    textContent (removeHighlight t id) = textContent t := by
  unfold removeHighlight
  split
  · rfl
  · split
    · split <;>
        simp [textContent, textN, textF_mergeTexts, (textF_norm).2, (textF_rmUnw id).2]
    · rfl

theorem removeHighlight_noop (t : DNode) (id : Str)
    (h : getHighlightElement t id = none) : removeHighlight t id = t := by
  cases t with
  | text s => rfl
  | elem tag cls attrs kids =>
    have h' : qselF id kids = none := h
    unfold removeHighlight
    simp [h']

theorem countF_append (id : Str) : ∀ (f g : DForest),
    countF id (f.append g) = countF id f + countF id g
  | .nil, g => by simp [DForest.append, countF]
  | .cons n f, g => by
    simp [DForest.append, countF, countF_append id f g]
    omega

theorem countF_ofList (id : Str) (l : List DNode) :
    countF id (ofList l) = (l.map (countN id)).sum := by
  induction l with
  | nil => simp [ofList, countF]
  | cons x t ih => simp [ofList, countF, ih]

theorem countN_span (id color matched : Str) :
    countN id (mkHighlightSpan id color matched) = 1 := by
  simp [mkHighlightSpan, countN, countF, isHLMatch, HL, attrGet]

theorem countN_text (id s : Str) : countN id (.text s) = 0 := rfl

theorem countF_wrapFragment (s : Str) (i len : Nat) (id color : Str) :
    countF id (wrapFragment s i len id color) = 1 := by
  unfold wrapFragment
  simp only []
  rw [countF_ofList]
  by_cases hb : (s.take i).isEmpty <;> by_cases ha : ((s.drop i).drop len).isEmpty <;>
    simp_all [countN_text, countN_span]
  all_goals rw [if_neg (by omega)]
  all_goals simp [countN_text]

theorem count_findWrap (tgt id color : Str) :
    (∀ n, ∀ pHL inCode frag, findWrapN tgt id color pHL inCode n = some frag →
      countF id frag = countN id n + 1)
    ∧ (∀ f, ∀ pHL inCode f', findWrapF tgt id color pHL inCode f = some f' →
      countF id f' = countF id f + 1) := by
  refine dtree_mutual_ind _ _ ?_ ?_ ?_ ?_
  · intro s pHL inCode frag h
    unfold findWrapN at h
    split at h
    · exact absurd h (by simp)
    · split at h
      · cases h
        simp [countF_wrapFragment, countN]
      · exact absurd h (by simp)
  · intro tag cls attrs kids ih pHL inCode frag h
    unfold findWrapN at h
    split at h
    next kids' heq =>
      cases h
      simp only [countF, countN, ih _ _ _ heq]
      omega
    · exact absurd h (by simp)
  · intro pHL inCode f' h
    exact absurd h (by simp [findWrapF])
  · intro n f ihn ihf pHL inCode f' h
    unfold findWrapF at h
    split at h
    next frag heq =>
      cases h
      rw [countF_append, ihn _ _ _ heq]
      simp [countF]
      omega
    next heq =>
      cases hf : findWrapF tgt id color pHL inCode f with
      | none => rw [hf] at h; exact absurd h (by simp)
      | some g =>
        rw [hf] at h
        cases h
        simp [countF, ihf _ _ _ hf]
        omega

theorem qsel_none_iff_count_zero (id : Str) :
    (∀ n, qselN id n = none ↔ countN id n = 0)
    ∧ (∀ f, qselF id f = none ↔ countF id f = 0) := by
  refine dtree_mutual_ind _ _ ?_ ?_ ?_ ?_
  · intro s
    simp [qselN, countN]
  · intro tag cls attrs kids ih
    by_cases hm : isHLMatch cls attrs id
    · simp [qselN, countN, hm]
    · simp [qselN, countN, hm, ih]
  · simp [qselF, countF]
  · intro n f ihn ihf
    cases hn : qselN id n with
    | some e =>
      have hne : countN id n ≠ 0 := by
        intro h
        have h2 := ihn.mpr h
        rw [h2] at hn
        exact Option.noConfusion hn
      simp only [qselF, countF, hn]
      constructor
      · intro h
        exact absurd h (by simp)
      · intro h
        exact absurd (by omega) hne
    | none =>
      have hcn : countN id n = 0 := ihn.mp hn
      simp [qselF, countF, hn, hcn, ihf]

theorem highlightText_of_found (t : DNode) (a : Codec.Annotation) (color : Str) :
    highlightText t a color = t
      ∨ (getHighlightElement (highlightText t a color) a.annotation_id).isSome = true := by
  unfold highlightText
  simp only []
  split
  · exact Or.inl rfl
  · split
    · exact Or.inl rfl
    · split
      · exact Or.inl rfl
      · split
        next kids' heq =>
          refine Or.inr ?_
          have hc := (count_findWrap a.selected_text a.annotation_id color).2 _ _ _ _ heq
          have : ¬(qselF a.annotation_id kids' = none) := by
            intro hq
            have := ((qsel_none_iff_count_zero a.annotation_id).2 kids').mp hq
            omega
          show (qselF a.annotation_id kids').isSome = true
          cases hq : qselF a.annotation_id kids' with
          | none => exact absurd hq this
          | some e => rfl
        · exact Or.inl rfl

theorem highlightText_of_marked (u : DNode) (a : Codec.Annotation) (color : Str)
    (h : (getHighlightElement u a.annotation_id).isSome = true) :
    highlightText u a color = u := by
  unfold highlightText
  simp only []
  split
  · rfl
  · simp [h]

end Hl

/-! ## C4 — idempotent marking -/

/-- C4: marking is idempotent — applying highlightText a second time
with the same record to the already-marked tree changes nothing; and
starting from a tree with no marker for the record's id, any number of
mark calls leaves at most one marker element carrying that id (one
call inserts at most one, and further calls are no-ops). -/
theorem C4_idempotent_mark (t : Hl.DNode) (a : Codec.Annotation) (color : Str) :
    Hl.highlightText (Hl.highlightText t a color) a color = Hl.highlightText t a color
    ∧ (Hl.countHighlights t a.annotation_id = 0 →
        Hl.countHighlights (Hl.highlightText t a color) a.annotation_id ≤ 1) := by
  constructor
  · rcases Hl.highlightText_of_found t a color with heq | hsome
    · rw [heq]
      exact heq
    · exact Hl.highlightText_of_marked _ a color hsome
  · intro h0
    unfold Hl.highlightText
    simp only []
    split
    · omega
    · split
      · omega
      · split
        · omega
        · split
          next kids' heq =>
            have hc := (Hl.count_findWrap a.selected_text a.annotation_id color).2 _ _ _ _ heq
            simp only [Hl.countHighlights] at h0 ⊢
            omega
          · omega

/-- C4 witness: the theorem applied at a concrete tree initially
containing no marker. -/
theorem C4_idempotent_mark_witness :
    Hl.highlightText
        (Hl.highlightText
          (.elem ("div".toList) [] [] (.cons (.text ("hello world".toList)) .nil))
          ⟨"id1".toList, "world".toList, .empty, "c".toList, "u".toList, "n".toList⟩
          ("yellow".toList))
        ⟨"id1".toList, "world".toList, .empty, "c".toList, "u".toList, "n".toList⟩
        ("yellow".toList)
      = Hl.highlightText
          (.elem ("div".toList) [] [] (.cons (.text ("hello world".toList)) .nil))
          ⟨"id1".toList, "world".toList, .empty, "c".toList, "u".toList, "n".toList⟩
          ("yellow".toList)
    ∧ Hl.countHighlights
        (Hl.highlightText
          (.elem ("div".toList) [] [] (.cons (.text ("hello world".toList)) .nil))
          ⟨"id1".toList, "world".toList, .empty, "c".toList, "u".toList, "n".toList⟩
          ("yellow".toList)) ("id1".toList) ≤ 1 :=
  ⟨(C4_idempotent_mark
      (.elem ("div".toList) [] [] (.cons (.text ("hello world".toList)) .nil))
      ⟨"id1".toList, "world".toList, .empty, "c".toList, "u".toList, "n".toList⟩
      ("yellow".toList)).1,
   (C4_idempotent_mark
      (.elem ("div".toList) [] [] (.cons (.text ("hello world".toList)) .nil))
      ⟨"id1".toList, "world".toList, .empty, "c".toList, "u".toList, "n".toList⟩
      ("yellow".toList)).2 (by decide)⟩

/-! ## C5 — first-occurrence tie-break -/

theorem firstSub_isPrefixOf {pat s : Str} {i : Nat} (h : firstSub pat s = some i) :
    pat.isPrefixOf (s.drop i) = true := by
  induction s generalizing i with
  | nil =>
    unfold firstSub at h
    split at h
    · cases h
      simpa [List.isPrefixOf] using (by simpa [List.isEmpty_iff] using ‹pat.isEmpty = true›)
    · cases h
  | cons c t ih =>
    unfold firstSub at h
    split at h
    · cases h
      simpa using ‹pat.isPrefixOf (c :: t) = true›
    · cases hf : firstSub pat t with
      | none => rw [hf] at h; cases h
      | some j =>
        rw [hf] at h
        cases h
        simpa using ih hf

theorem firstSub_min {pat s : Str} {i : Nat} (h : firstSub pat s = some i) :
    ∀ j < i, ¬(pat.isPrefixOf (s.drop j) = true) := by
  induction s generalizing i with
  | nil =>
    unfold firstSub at h
    split at h
    · cases h; omega
    · cases h
  | cons c t ih =>
    unfold firstSub at h
    split at h
    · cases h; omega
    · cases hf : firstSub pat t with
      | none => rw [hf] at h; cases h
      | some k =>
        rw [hf] at h
        cases h
        intro j hj
        cases j with
        | zero => simpa using ‹¬pat.isPrefixOf (c :: t) = true›
        | succ j2 =>
          have hj2 : j2 < k := by simpa using hj
          simpa using ih hf j2 hj2

/-- Number of occurrence positions of pat in s. -/
def occCount (pat : Str) : Str → Nat
  | [] => 0
  | c :: t => (if pat.isPrefixOf (c :: t) then 1 else 0) + occCount pat t

theorem occCount_pos_hasSub {pat s : Str} (h : 0 < occCount pat s) :
    hasSub pat s = true := by
  induction s with
  | nil => simp [occCount] at h
  | cons c t ih =>
    unfold occCount at h
    by_cases hp : pat.isPrefixOf (c :: t) = true
    · simp [hasSub, firstSub, hp]
    · simp only [hp, Bool.false_eq_true, if_false, Nat.zero_add] at h
      have := ih h
      simp only [hasSub, firstSub, hp, Bool.false_eq_true, if_false] at this ⊢
      cases hf : firstSub pat t with
      | none => rw [hf] at this; simp at this
      | some j => simp

namespace Hl

/-- The leaf entries contributed by an optional before/after text node
of the wrap fragment (empty texts are not inserted; the surviving ones
are eligible, their parent being the original eligible parent). -/
def eligOpt (x : Str) : List (Bool × Str) := if x.isEmpty then [] else [(true, x)]

/-- Total number of target occurrences within eligible leaves. -/
def occTotal (pat : Str) (lvs : List (Bool × Str)) : Nat :=
  (lvs.map (fun q => if q.1 then occCount pat q.2 else 0)).sum

theorem occTotal_pos_exists {pat : Str} {lvs : List (Bool × Str)}
    (h : 0 < occTotal pat lvs) :
    ∃ q ∈ lvs, q.1 = true ∧ hasSub pat q.2 = true := by
  induction lvs with
  | nil => simp [occTotal] at h
  | cons q t ih =>
    unfold occTotal at h
    simp only [List.map_cons, List.sum_cons] at h
    by_cases hq : q.1 = true
    · by_cases ho : 0 < occCount pat q.2
      · exact ⟨q, List.mem_cons_self q t, hq, occCount_pos_hasSub ho⟩
      · have : 0 < occTotal pat t := by
          simp only [hq, if_true] at h
          unfold occTotal
          omega
        obtain ⟨r, hr, h1, h2⟩ := ih this
        exact ⟨r, List.mem_cons_of_mem q hr, h1, h2⟩
    · have hq' : q.1 = false := by simpa using hq
      have : 0 < occTotal pat t := by
        simp only [hq', Bool.false_eq_true, if_false] at h
        unfold occTotal
        omega
      obtain ⟨r, hr, h1, h2⟩ := ih this
      exact ⟨r, List.mem_cons_of_mem q hr, h1, h2⟩

theorem leavesF_append (pHL inCode : Bool) : ∀ (f g : DForest),
    leavesF pHL inCode (f.append g) = leavesF pHL inCode f ++ leavesF pHL inCode g
  | .nil, g => by simp [DForest.append, leavesF]
  | .cons n f, g => by
    simp [DForest.append, leavesF, leavesF_append pHL inCode f g]

theorem leavesF_ofList (pHL inCode : Bool) (l : List DNode) :
    leavesF pHL inCode (ofList l) = (l.map (leavesN pHL inCode)).flatten := by
  induction l with
  | nil => simp [ofList, leavesF]
  | cons x t ih => simp [ofList, leavesF, ih]

theorem leavesN_text (pHL inCode : Bool) (s : Str) :
    leavesN pHL inCode (.text s) = [((!pHL && !inCode), s)] := rfl

theorem leavesN_span (pHL inCode : Bool) (id color m : Str) :
    leavesN pHL inCode (mkHighlightSpan id color m) = [(false, m)] := by
  have h1 : (([HL] : List Str).contains HL) = true := by
    simp [List.contains_cons]
  simp [mkHighlightSpan, leavesN, leavesF, h1]

theorem leavesF_ofList_emptyif (x : Str) (rest : List DNode) :
    leavesF false false (ofList ((if x.isEmpty then [] else [DNode.text x]) ++ rest))
      = eligOpt x ++ leavesF false false (ofList rest) := by
  by_cases h : x.isEmpty
  · simp [h, eligOpt, ofList]
  · simp [h, eligOpt, ofList, leavesF, leavesN_text]

theorem leavesF_ofList_emptyone (x : Str) :
    leavesF false false (ofList (if x.isEmpty then [] else [DNode.text x]))
      = eligOpt x := by
  by_cases h : x.isEmpty
  · simp [h, eligOpt, ofList, leavesF]
  · simp [h, eligOpt, ofList, leavesF, leavesN_text]

theorem leavesF_wrapFragment (s : Str) (i len : Nat) (id color : Str) :
    leavesF false false (wrapFragment s i len id color)
      = eligOpt (s.take i) ++ (false, (s.drop i).take len)
          :: eligOpt ((s.drop i).drop len) := by
  unfold wrapFragment
  simp only []
  rw [List.append_assoc, leavesF_ofList_emptyif]
  show eligOpt (s.take i) ++ leavesF false false (ofList (_ :: _)) = _
  simp only [ofList, leavesF, leavesN_span, List.append_eq, List.nil_append]
  rw [leavesF_ofList_emptyone]
  simp

theorem findWrap_none (tgt id color : Str) :
    (∀ n, ∀ pHL inCode, findWrapN tgt id color pHL inCode n = none →
      ∀ q ∈ leavesN pHL inCode n, ¬(q.1 = true ∧ hasSub tgt q.2 = true))
    ∧ (∀ f, ∀ pHL inCode, findWrapF tgt id color pHL inCode f = none →
      ∀ q ∈ leavesF pHL inCode f, ¬(q.1 = true ∧ hasSub tgt q.2 = true)) := by
  refine dtree_mutual_ind _ _ ?_ ?_ ?_ ?_
  · intro s pHL inCode hn q hq
    unfold findWrapN at hn
    simp only [leavesN, List.mem_singleton] at hq
    subst hq
    split at hn
    next hskip =>
      rintro ⟨h1, h2⟩
      simp only [Bool.and_eq_true, Bool.not_eq_true'] at h1
      rcases Bool.or_eq_true _ _ |>.mp hskip with h | h <;> simp_all
    next hskip =>
      split at hn
      · cases hn
      next hfs =>
        rintro ⟨h1, h2⟩
        simp [hasSub, hfs] at h2
  · intro tag cls attrs kids ih pHL inCode hn q hq
    unfold findWrapN at hn
    split at hn
    · cases hn
    next hkids => exact ih _ _ hkids q hq
  · intro pHL inCode hn q hq
    simp [leavesF] at hq
  · intro n f ihn ihf pHL inCode hn q hq
    unfold findWrapF at hn
    split at hn
    · cases hn
    next hnone =>
      cases hF : findWrapF tgt id color pHL inCode f with
      | some f2 => rw [hF] at hn; simp at hn
      | none =>
        simp only [leavesF, List.mem_append] at hq
        rcases hq with hq | hq
        · exact ihn _ _ hnone q hq
        · exact ihf _ _ hF q hq

theorem findWrap_decomp (tgt id color : Str) :
    (∀ n, ∀ pHL inCode frag, findWrapN tgt id color pHL inCode n = some frag →
      ∃ A s B i, leavesN pHL inCode n = A ++ (true, s) :: B
        ∧ (∀ q ∈ A, ¬(q.1 = true ∧ hasSub tgt q.2 = true))
        ∧ firstSub tgt s = some i
        ∧ leavesF pHL inCode frag
            = A ++ (eligOpt (s.take i) ++ (false, (s.drop i).take tgt.length)
                :: eligOpt ((s.drop i).drop tgt.length)) ++ B)
    ∧ (∀ f, ∀ pHL inCode f', findWrapF tgt id color pHL inCode f = some f' →
      ∃ A s B i, leavesF pHL inCode f = A ++ (true, s) :: B
        ∧ (∀ q ∈ A, ¬(q.1 = true ∧ hasSub tgt q.2 = true))
        ∧ firstSub tgt s = some i
        ∧ leavesF pHL inCode f'
            = A ++ (eligOpt (s.take i) ++ (false, (s.drop i).take tgt.length)
                :: eligOpt ((s.drop i).drop tgt.length)) ++ B) := by
  refine dtree_mutual_ind _ _ ?_ ?_ ?_ ?_
  · intro s pHL inCode frag h
    unfold findWrapN at h
    split at h
    · cases h
    next hskip =>
      split at h
      next i hf =>
        cases h
        have hp : pHL = false := by
          cases pHL
          · rfl
          · exact absurd (by simp) hskip
        have hc : inCode = false := by
          cases inCode
          · rfl
          · exact absurd (by simp) hskip
        subst hp hc
        refine ⟨[], s, [], i, by simp [leavesN], by simp, hf, ?_⟩
        simp [leavesF_wrapFragment]
      · cases h
  · intro tag cls attrs kids ih pHL inCode frag h
    unfold findWrapN at h
    split at h
    next kids' heq =>
      cases h
      obtain ⟨A, s, B, i, h1, h2, h3, h4⟩ := ih _ _ _ heq
      exact ⟨A, s, B, i, h1, h2, h3, by simpa [leavesN, leavesF] using h4⟩
    · cases h
  · intro pHL inCode f' h
    exact absurd h (by simp [findWrapF])
  · intro n f ihn ihf pHL inCode f' h
    unfold findWrapF at h
    split at h
    next frag heq =>
      cases h
      obtain ⟨A, s, B, i, h1, h2, h3, h4⟩ := ihn _ _ _ heq
      refine ⟨A, s, B ++ leavesF pHL inCode f, i, ?_, h2, h3, ?_⟩
      · simp [leavesF, h1]
      · rw [leavesF_append, h4]
        simp
    next hnone =>
      cases hF : findWrapF tgt id color pHL inCode f with
      | none => rw [hF] at h; cases h
      | some f2 =>
        rw [hF] at h
        cases h
        obtain ⟨A, s, B, i, h1, h2, h3, h4⟩ := ihf _ _ _ hF
        have hclean := (findWrap_none tgt id color).1 n pHL inCode hnone
        refine ⟨leavesN pHL inCode n ++ A, s, B, i, ?_, ?_, h3, ?_⟩
        · simp [leavesF, h1]
        · intro q hq
          rcases List.mem_append.mp hq with hq | hq
          · exact hclean q hq
          · exact h2 q hq
        · simp [leavesF, h4]

end Hl

/-- C5: when the eligible leaves of the tree contain the record's
selectedText in at least two places (and no marker for the id exists
yet, the target being nonempty and not whitespace-only), highlightText
wraps exactly the first occurrence in document order: the eligible-leaf
sequence splits as A, the hit leaf s, B, where no leaf in A is an
eligible match, the wrap happens at the first occurrence index i inside
s (no earlier index matches), the wrapped span carries exactly the
selected text, the rest of the leaves — including every later
occurrence — survive unchanged as plain text, and exactly one marker
with the record's id exists afterwards. -/
theorem C5_first_occurrence (t : Hl.DNode) (a : Codec.Annotation) (color : Str)
    (hguard : Hl.getHighlightElement t a.annotation_id = none)
    (hne : a.selected_text ≠ [])
    (htr : jsTrim a.selected_text ≠ [])
    (hocc : 2 ≤ Hl.occTotal a.selected_text (Hl.leavesTop t)) :
    ∃ A s B i, Hl.leavesTop t = A ++ (true, s) :: B
      ∧ (∀ q ∈ A, ¬(q.1 = true ∧ hasSub a.selected_text q.2 = true))
      ∧ firstSub a.selected_text s = some i
      ∧ (∀ j < i, ¬(a.selected_text.isPrefixOf (s.drop j) = true))
      ∧ (s.drop i).take a.selected_text.length = a.selected_text
      ∧ Hl.leavesTop (Hl.highlightText t a color)
          = A ++ (Hl.eligOpt (s.take i) ++ (false, a.selected_text)
              :: Hl.eligOpt ((s.drop i).drop a.selected_text.length)) ++ B
      ∧ Hl.countHighlights (Hl.highlightText t a color) a.annotation_id = 1 := by
  cases t with
  | text s0 =>
    exact absurd hocc (by simp [Hl.leavesTop, Hl.occTotal])
  | elem tag cls attrs kids =>
    have hq : Hl.qselF a.annotation_id kids = none := hguard
    have hcnt : Hl.countF a.annotation_id kids = 0 :=
      ((Hl.qsel_none_iff_count_zero a.annotation_id).2 kids).mp hq
    have hocc2 : 2 ≤ Hl.occTotal a.selected_text
        (Hl.leavesF (cls.contains Hl.HL) (Hl.isCodeAncestor tag cls) kids) := hocc
    have hfw : ∃ kids', Hl.findWrapF a.selected_text a.annotation_id color
        (cls.contains Hl.HL) (Hl.isCodeAncestor tag cls) kids = some kids' := by
      cases hf : Hl.findWrapF a.selected_text a.annotation_id color
          (cls.contains Hl.HL) (Hl.isCodeAncestor tag cls) kids with
      | some kids' => exact ⟨kids', rfl⟩
      | none =>
        obtain ⟨q, hqmem, hq1, hq2⟩ := @Hl.occTotal_pos_exists a.selected_text
          (Hl.leavesF (cls.contains Hl.HL) (Hl.isCodeAncestor tag cls) kids) (by omega)
        exact absurd ⟨hq1, hq2⟩
          ((Hl.findWrap_none a.selected_text a.annotation_id color).2 kids _ _ hf q hqmem)
    obtain ⟨kids', hf⟩ := hfw
    obtain ⟨A, s, B, i, h1, h2, h3, h4⟩ :=
      (Hl.findWrap_decomp a.selected_text a.annotation_id color).2 kids _ _ _ hf
    have hres : Hl.highlightText (.elem tag cls attrs kids) a color
        = .elem tag cls attrs kids' := by
      unfold Hl.highlightText
      simp only []
      rw [if_neg (by simp [List.isEmpty_iff, hne, htr]), hf]
      have : (Hl.getHighlightElement (.elem tag cls attrs kids) a.annotation_id).isSome
          = false := by
        show (Hl.qselF a.annotation_id kids).isSome = false
        rw [hq]
        rfl
      simp [this]
    have hmatched : (s.drop i).take a.selected_text.length = a.selected_text := by
      have hp := firstSub_isPrefixOf h3
      have := (List.isPrefixOf_iff_prefix).mp hp
      exact ((List.prefix_iff_eq_take).mp this).symm
    refine ⟨A, s, B, i, h1, h2, h3, firstSub_min h3, hmatched, ?_, ?_⟩
    · rw [hres]
      show Hl.leavesF (cls.contains Hl.HL) (Hl.isCodeAncestor tag cls) kids'
          = A ++ (Hl.eligOpt (s.take i) ++ (false, a.selected_text)
              :: Hl.eligOpt ((s.drop i).drop a.selected_text.length)) ++ B
      rw [h4, hmatched]
    · rw [hres]
      show Hl.countF a.annotation_id kids' = 1
      have := (Hl.count_findWrap a.selected_text a.annotation_id color).2 kids _ _ _ hf
      omega

/-- C5 witness: a tree whose single eligible leaf contains the target
twice; the theorem is applied with all hypotheses discharged
concretely. -/
theorem C5_first_occurrence_witness :
    ∃ A s B i,
      Hl.leavesTop (.elem ("div".toList) [] []
          (.cons (.text ("cat and cat".toList)) .nil)) = A ++ (true, s) :: B
      ∧ (∀ q ∈ A, ¬(q.1 = true ∧ hasSub ("cat".toList) q.2 = true))
      ∧ firstSub ("cat".toList) s = some i
      ∧ (∀ j < i, ¬(("cat".toList).isPrefixOf (s.drop j) = true))
      ∧ (s.drop i).take ("cat".toList).length = "cat".toList
      ∧ Hl.leavesTop (Hl.highlightText
            (.elem ("div".toList) [] [] (.cons (.text ("cat and cat".toList)) .nil))
            ⟨"id9".toList, "cat".toList, .empty, "c".toList, "u".toList, "n".toList⟩
            ("yellow".toList))
          = A ++ (Hl.eligOpt (s.take i) ++ (false, "cat".toList)
              :: Hl.eligOpt ((s.drop i).drop ("cat".toList).length)) ++ B
      ∧ Hl.countHighlights (Hl.highlightText
            (.elem ("div".toList) [] [] (.cons (.text ("cat and cat".toList)) .nil))
            ⟨"id9".toList, "cat".toList, .empty, "c".toList, "u".toList, "n".toList⟩
            ("yellow".toList)) ("id9".toList) = 1 :=
  C5_first_occurrence
    (.elem ("div".toList) [] [] (.cons (.text ("cat and cat".toList)) .nil))
    ⟨"id9".toList, "cat".toList, .empty, "c".toList, "u".toList, "n".toList⟩
    ("yellow".toList) (by decide) (by decide) (by decide) (by decide)

/-! ## C6 — unmark restores text -/

/-- C6: for every tree, record and color, unmarking after marking
yields a tree whose concatenated text content is byte-identical to the
original tree's text content (both operations preserve textContent);
and on a tree containing no marker element with the given id,
removeHighlight is a no-op, returning the tree unchanged. -/
theorem C6_unmark_restores (t : Hl.DNode) (a : Codec.Annotation) (color : Str) :
    Hl.textContent (Hl.removeHighlight (Hl.highlightText t a color) a.annotation_id)
        = Hl.textContent t
      ∧ (Hl.getHighlightElement t a.annotation_id = none →
          Hl.removeHighlight t a.annotation_id = t) :=
  ⟨(Hl.textContent_removeHighlight _ _).trans (Hl.textContent_highlightText t a color),
   fun h => Hl.removeHighlight_noop t a.annotation_id h⟩

/-- C6 witness: the theorem applied at a concrete tree containing the
selected text. -/
theorem C6_unmark_restores_witness :
    Hl.textContent (Hl.removeHighlight
        (Hl.highlightText
          (.elem ("div".toList) [] [] (.cons (.text ("hello world".toList)) .nil))
          ⟨"id1".toList, "world".toList, .empty, "c".toList, "u".toList, "n".toList⟩
          ("yellow".toList)) ("id1".toList))
      = Hl.textContent
          (.elem ("div".toList) [] [] (.cons (.text ("hello world".toList)) .nil))
    ∧ (Hl.getHighlightElement
        (.elem ("div".toList) [] [] (.cons (.text ("hello world".toList)) .nil))
        ("id1".toList) = none →
      Hl.removeHighlight
        (.elem ("div".toList) [] [] (.cons (.text ("hello world".toList)) .nil))
        ("id1".toList)
      = .elem ("div".toList) [] [] (.cons (.text ("hello world".toList)) .nil)) :=
  C6_unmark_restores
    (.elem ("div".toList) [] [] (.cons (.text ("hello world".toList)) .nil))
    ⟨"id1".toList, "world".toList, .empty, "c".toList, "u".toList, "n".toList⟩
    ("yellow".toList)


/-- C1: a selected text containing a colon is emitted quoted by
escapeYaml, and parseYamlFrontmatter never strips the quotes back off:
serializing and reparsing such a record does not return the record. -/
theorem C1_counterexample :
    Codec.parseAnnotations ("T".toList)
      (Codec.serializeAnnotations [⟨"a".toList, "x:y".toList,
        .obj ⟨"f.md".toList, 0, 0⟩, "c1".toList, "u1".toList, "note".toList⟩])
    ≠ [⟨"a".toList, "x:y".toList, .obj ⟨"f.md".toList, 0, 0⟩,
        "c1".toList, "u1".toList, "note".toList⟩] := by decide

namespace Codec

theorem stripPre_append (p x : Str) : stripPre p (p ++ x) = some x := by
  have h1 : p.isPrefixOf (p ++ x) = true :=
    (List.isPrefixOf_iff_prefix).mpr (List.prefix_append p x)
  simp [stripPre, h1]

theorem prefix_append_of_le {pat x : Str} (y : Str) (h : pat.length ≤ x.length)
    (hp : pat <+: x ++ y) : pat <+: x := by
  rw [List.prefix_iff_eq_take] at hp ⊢
  calc pat = (x ++ y).take pat.length := hp
    _ = x.take pat.length := List.take_append_of_le_length h

theorem isPrefixOf_append_of_le {pat x : Str} (y : Str) (h : pat.length ≤ x.length) :
    pat.isPrefixOf (x ++ y) = pat.isPrefixOf x := by
  by_cases hx : pat <+: x
  · rw [(List.isPrefixOf_iff_prefix).mpr hx,
      (List.isPrefixOf_iff_prefix).mpr (hx.trans (List.prefix_append x y))]
  · have h1 : pat.isPrefixOf x = false := by
      rw [← Bool.not_eq_true, List.isPrefixOf_iff_prefix]; exact hx
    have h2 : pat.isPrefixOf (x ++ y) = false := by
      rw [← Bool.not_eq_true, List.isPrefixOf_iff_prefix]
      intro hc; exact hx (prefix_append_of_le y h hc)
    rw [h1, h2]

theorem firstSub_none_all {pat : Str} (hne : pat ≠ []) :
    ∀ {s : Str}, firstSub pat s = none → ∀ p, pat.isPrefixOf (s.drop p) = false := by
  intro s
  induction s with
  | nil =>
    intro _ p
    rw [List.drop_nil]
    cases pat with
    | nil => exact absurd rfl hne
    | cons c t => rfl
  | cons c t ih =>
    intro h p
    simp only [firstSub] at h
    by_cases hp : pat.isPrefixOf (c :: t) = true
    · rw [if_pos hp] at h; exact absurd h (by simp)
    · rw [if_neg hp] at h
      have h2 : firstSub pat t = none := by
        cases hfs : firstSub pat t with
        | none => rfl
        | some k => rw [hfs] at h; exact absurd h (by simp)
      cases p with
      | zero =>
        rw [List.drop_zero]
        simp only [Bool.not_eq_true] at hp
        exact hp
      | succ p => rw [List.drop_succ_cons]; exact ih h2 p

theorem digitChar_toNat {d : Nat} (h : d < 10) : (Char.ofNat (48 + d)).toNat = 48 + d := by
  interval_cases d <;> decide

theorem digitVal_digitChar {d : Nat} (h : d < 10) :
    digitVal (Char.ofNat (48 + d)) = some d := by
  interval_cases d <;> decide

theorem natToRevAux_fuel (n : Nat) : ∀ f1 f2, n < f1 → n < f2 →
    natToRevAux f1 n = natToRevAux f2 n := by
  induction n using Nat.strong_induction_on with
  | _ n ih =>
    intro f1 f2 h1 h2
    obtain ⟨g1, rfl⟩ : ∃ g, f1 = g + 1 := ⟨f1 - 1, by omega⟩
    obtain ⟨g2, rfl⟩ : ∃ g, f2 = g + 1 := ⟨f2 - 1, by omega⟩
    by_cases h : n < 10
    · simp [natToRevAux, h]
    · have hdiv : n / 10 < n := Nat.div_lt_self (by omega) (by omega)
      simp only [natToRevAux, if_neg h]
      rw [ih (n / 10) hdiv g1 g2 (by omega) (by omega)]

theorem natToRevAux_digits : ∀ fuel n c, c ∈ natToRevAux fuel n →
    ∃ d, d < 10 ∧ c = Char.ofNat (48 + d) := by
  intro fuel
  induction fuel with
  | zero => intro n c hc; simp [natToRevAux] at hc
  | succ fuel ih =>
    intro n c hc
    by_cases h : n < 10
    · simp only [natToRevAux, if_pos h, List.mem_singleton] at hc
      exact ⟨n, h, hc⟩
    · simp only [natToRevAux, if_neg h, List.mem_cons] at hc
      rcases hc with hc | hc
      · exact ⟨n % 10, Nat.mod_lt n (by omega), hc⟩
      · exact ih (n / 10) c hc

theorem natToStr_digits {n : Nat} {c : Char} (hc : c ∈ natToStr n) :
    48 ≤ c.toNat ∧ c.toNat ≤ 57 := by
  rw [natToStr, List.mem_reverse] at hc
  obtain ⟨d, hd, rfl⟩ := natToRevAux_digits (n + 1) n c hc
  rw [digitChar_toNat hd]
  omega

def valF (acc : Nat) (ds : Str) : Nat :=
  ds.foldl (fun a c => a * 10 + (c.toNat - 48)) acc

theorem valF_append (acc : Nat) (a b : Str) : valF acc (a ++ b) = valF (valF acc a) b := by
  simp only [valF, List.foldl_append]

theorem parseDigitsAux_run (ds : Str) : ∀ rest acc,
    (∀ c ∈ ds, 48 ≤ c.toNat ∧ c.toNat ≤ 57) →
    (∀ c t, rest = c :: t → digitVal c = none) →
    parseDigitsAux (ds ++ rest) acc = (valF acc ds, rest) := by
  induction ds with
  | nil =>
    intro rest acc _ hrest
    cases rest with
    | nil => rfl
    | cons c t =>
      simp only [List.nil_append, parseDigitsAux, hrest c t rfl]
      rfl
  | cons d ds ih =>
    intro rest acc hds hrest
    have hd := hds d (List.mem_cons_self d ds)
    have hdv : digitVal d = some (d.toNat - 48) := by
      rw [digitVal, if_pos hd]
    simp only [List.cons_append, parseDigitsAux, hdv, List.append_eq]
    rw [ih rest (acc * 10 + (d.toNat - 48)) (fun c hc => hds c (List.mem_cons_of_mem d hc)) hrest]
    rfl

theorem natToStr_ne_nil (n : Nat) : natToStr n ≠ [] := by
  rw [natToStr, natToRevDigits]
  by_cases h : n < 10 <;> simp [natToRevAux, h]

theorem valF_natToStr (n : Nat) : valF 0 (natToStr n) = n := by
  induction n using Nat.strong_induction_on with
  | _ n ih =>
    by_cases h : n < 10
    · rw [natToStr, natToRevDigits]
      simp only [natToRevAux, if_pos h, List.reverse_singleton]
      simp only [valF, List.foldl_cons, List.foldl_nil]
      rw [digitChar_toNat h]
      omega
    · have hdiv : n / 10 < n := Nat.div_lt_self (by omega) (by omega)
      have hrw : natToStr n = natToStr (n / 10) ++ [Char.ofNat (48 + n % 10)] := by
        have h1 : natToRevAux (n + 1) n
            = Char.ofNat (48 + n % 10) :: natToRevAux n (n / 10) := by
          simp only [natToRevAux, if_neg h]
        have h2 : natToRevAux n (n / 10) = natToRevAux (n / 10 + 1) (n / 10) :=
          natToRevAux_fuel (n / 10) n (n / 10 + 1) hdiv (Nat.lt_succ_self _)
        rw [natToStr, natToStr, natToRevDigits, natToRevDigits, h1, h2, List.reverse_cons]
      rw [hrw, valF_append, ih (n / 10) hdiv]
      simp only [valF, List.foldl_cons, List.foldl_nil]
      rw [digitChar_toNat (show n % 10 < 10 by omega)]
      omega

theorem parseNatPre_natToStr (n : Nat) (rest : Str)
    (hrest : ∀ c t, rest = c :: t → digitVal c = none) :
    parseNatPre (natToStr n ++ rest) = some (n, rest) := by
  have hrun := parseDigitsAux_run (natToStr n) rest 0 (fun x hx => natToStr_digits hx) hrest
  obtain ⟨c, t, hct⟩ : ∃ c t, natToStr n = c :: t := by
    cases hn : natToStr n with
    | nil => exact absurd hn (natToStr_ne_nil n)
    | cons c t => exact ⟨c, t, rfl⟩
  have hcd : 48 ≤ c.toNat ∧ c.toNat ≤ 57 :=
    natToStr_digits (by rw [hct]; exact List.mem_cons_self c t)
  have hdv : (digitVal c).isSome = true := by
    rw [digitVal, if_pos hcd]; rfl
  have hval : valF 0 (natToStr n) = n := valF_natToStr n
  rw [hct] at hrun hval ⊢
  rw [List.cons_append]
  simp only [parseNatPre, hdv, if_pos]
  rw [← List.cons_append, hrun, hval]

theorem parseJsonStringBody_round (s : Str) : ∀ rest,
    parseJsonStringBody ((s.map jsonEscChar).flatten ++ '"' :: rest) = some (s, rest) := by
  induction s with
  | nil =>
    intro rest
    show parseJsonStringBody ('"' :: rest) = some ([], rest)
    rw [parseJsonStringBody.eq_def]
    rfl
  | cons c t ih =>
    intro rest
    by_cases hq : c = '"'
    · subst hq
      have he : jsonEscChar '"' = ['\\', '"'] := by decide
      simp only [List.map_cons, List.flatten_cons, he, List.cons_append, List.append_assoc]
      rw [parseJsonStringBody.eq_def]
      simp [ih rest]
    · by_cases hb : c = '\\'
      · subst hb
        have he : jsonEscChar '\\' = ['\\', '\\'] := by decide
        simp only [List.map_cons, List.flatten_cons, he, List.cons_append, List.append_assoc]
        rw [parseJsonStringBody.eq_def]
        simp [ih rest]
      · have he : jsonEscChar c = [c] := by simp [jsonEscChar, hq, hb]
        simp only [List.map_cons, List.flatten_cons, he, List.cons_append, List.append_assoc]
        rw [parseJsonStringBody.eq_def]
        simp only [if_neg hq, if_neg hb]
        simp [ih rest]

end Codec

namespace Codec

theorem jsTrim_length_le (s : Str) : (jsTrim s).length ≤ s.length := by
  rw [jsTrim]
  calc ((s.dropWhile wsChar).reverse.dropWhile wsChar).reverse.length
      = ((s.dropWhile wsChar).reverse.dropWhile wsChar).length := List.length_reverse _
    _ ≤ (s.dropWhile wsChar).reverse.length := (List.dropWhile_sublist wsChar).length_le
    _ = (s.dropWhile wsChar).length := List.length_reverse _
    _ ≤ s.length := (List.dropWhile_sublist wsChar).length_le

theorem dropWhile_of_trimStable {s : Str} (h : jsTrim s = s) : s.dropWhile wsChar = s := by
  have h1 : (s.dropWhile wsChar).length ≤ s.length := (List.dropWhile_sublist wsChar).length_le
  have h2 : s.length ≤ (s.dropWhile wsChar).length := by
    conv_lhs => rw [← h]
    rw [jsTrim, List.length_reverse]
    calc ((s.dropWhile wsChar).reverse.dropWhile wsChar).length
        ≤ (s.dropWhile wsChar).reverse.length := (List.dropWhile_sublist wsChar).length_le
      _ = (s.dropWhile wsChar).length := List.length_reverse _
  exact (List.dropWhile_suffix wsChar).eq_of_length (by omega)

theorem revDrop_of_trimStable {s : Str} (h : jsTrim s = s) :
    s.reverse.dropWhile wsChar = s.reverse := by
  have hd := dropWhile_of_trimStable h
  rw [jsTrim, hd] at h
  calc s.reverse.dropWhile wsChar
      = ((s.reverse.dropWhile wsChar).reverse).reverse := (List.reverse_reverse _).symm
    _ = s.reverse := by rw [h]

theorem jsTrim_stable_of_ends {s : Str}
    (h1 : s.dropWhile wsChar = s) (h2 : s.reverse.dropWhile wsChar = s.reverse) :
    jsTrim s = s := by
  rw [jsTrim, h1, h2, List.reverse_reverse]

theorem trimStable_head {s : Str} (h : jsTrim s = s) {c : Char} {t : Str}
    (hs : s = c :: t) : wsChar c = false := by
  have hd := dropWhile_of_trimStable h
  subst hs
  by_contra hc
  rw [Bool.not_eq_false] at hc
  rw [List.dropWhile_cons_of_pos hc] at hd
  have hle : (t.dropWhile wsChar).length ≤ t.length := (List.dropWhile_sublist wsChar).length_le
  have h2 := congrArg List.length hd
  simp only [List.length_cons] at h2
  omega

theorem jsTrim_ws_cons {c : Char} (hc : wsChar c = true) {v : Str} (h : jsTrim v = v) :
    jsTrim (c :: v) = v := by
  have hd := dropWhile_of_trimStable h
  have hr := revDrop_of_trimStable h
  rw [jsTrim, List.dropWhile_cons_of_pos hc, hd, hr, List.reverse_reverse]

theorem jsTrim_append_nl {c : Str} (h : jsTrim c = c) : jsTrim (c ++ ['\n']) = c := by
  cases c with
  | nil => decide
  | cons d t =>
    have hhead : wsChar d = false := trimStable_head h rfl
    have hd2 : ((d :: t) ++ ['\n']).dropWhile wsChar = (d :: t) ++ ['\n'] := by
      rw [List.cons_append,
        List.dropWhile_cons_of_neg (by rw [hhead]; exact Bool.false_ne_true)]
    have hrev : ((d :: t) ++ ['\n']).reverse = '\n' :: (d :: t).reverse := by
      rw [List.reverse_append]; rfl
    rw [jsTrim, hd2, hrev, List.dropWhile_cons_of_pos (by decide),
      revDrop_of_trimStable h, List.reverse_reverse]

theorem splitNl_single {a : Str} (ha : '\n' ∉ a) : splitNl a = [a] := by
  induction a with
  | nil => rfl
  | cons c t ih =>
    have hc : ¬c = '\n' := fun hh => ha (hh ▸ List.mem_cons_self c t)
    have ht : '\n' ∉ t := fun hh => ha (List.mem_cons_of_mem c hh)
    simp only [splitNl, if_neg hc, ih ht]

theorem splitNl_append {a : Str} (b : Str) (ha : '\n' ∉ a) :
    splitNl (a ++ '\n' :: b) = a :: splitNl b := by
  induction a with
  | nil =>
    simp [splitNl]
  | cons c t ih =>
    have hc : ¬c = '\n' := fun hh => ha (hh ▸ List.mem_cons_self c t)
    have ht : '\n' ∉ t := fun hh => ha (List.mem_cons_of_mem c hh)
    simp only [List.cons_append, splitNl, if_neg hc, List.append_eq, ih ht]

theorem parsePosInline_round (fp : Str) (off ln : Nat) :
    parsePosInline (posToJson (.obj ⟨fp, off, ln⟩)) = some (.obj ⟨fp, off, ln⟩, []) := by
  have hshape : posToJson (.obj ⟨fp, off, ln⟩)
      = (lb :: "\"file_path\":\"".toList)
        ++ ((fp.map jsonEscChar).flatten
          ++ '"' :: (",\"offset\":".toList
            ++ (natToStr off
              ++ (",\"line_number\":".toList ++ (natToStr ln ++ [rb]))))) := by
    simp only [posToJson, jsonString]
    simp only [List.append_assoc, List.cons_append]
    rfl
  rw [hshape]
  obtain ⟨R, hR⟩ : ∃ R, (lb :: "\"file_path\":\"".toList)
      ++ ((fp.map jsonEscChar).flatten
        ++ '"' :: (",\"offset\":".toList
          ++ (natToStr off
            ++ (",\"line_number\":".toList ++ (natToStr ln ++ [rb])))))
      = lb :: '"' :: R := ⟨_, rfl⟩
  have hq : (rb == '"') = false := by decide
  have hstrip1 : stripPre [lb, rb] (lb :: '"' :: R) = none := by
    simp [stripPre, List.isPrefixOf, hq]
  rw [← hR] at hstrip1
  have h1 := stripPre_append (lb :: "\"file_path\":\"".toList)
    ((fp.map jsonEscChar).flatten
      ++ '"' :: (",\"offset\":".toList
        ++ (natToStr off
          ++ (",\"line_number\":".toList ++ (natToStr ln ++ [rb])))))
  have h2 := parseJsonStringBody_round fp
    (",\"offset\":".toList
      ++ (natToStr off ++ (",\"line_number\":".toList ++ (natToStr ln ++ [rb]))))
  have h3 := stripPre_append (",\"offset\":".toList)
    (natToStr off ++ (",\"line_number\":".toList ++ (natToStr ln ++ [rb])))
  have h4 : parseNatPre (natToStr off
      ++ (",\"line_number\":".toList ++ (natToStr ln ++ [rb])))
      = some (off, ",\"line_number\":".toList ++ (natToStr ln ++ [rb])) := by
    apply parseNatPre_natToStr
    intro c t h
    have hc : c = ',' := by
      rw [show (",\"line_number\":".toList ++ (natToStr ln ++ [rb]))
          = ',' :: ("\"line_number\":".toList ++ (natToStr ln ++ [rb])) from rfl] at h
      exact (List.cons.injEq _ _ _ _ ▸ h).1.symm
    rw [hc]; decide
  have h5 := stripPre_append (",\"line_number\":".toList) (natToStr ln ++ [rb])
  have h6 : parseNatPre (natToStr ln ++ [rb]) = some (ln, [rb]) := by
    apply parseNatPre_natToStr
    intro c t h
    have hc : c = rb := (List.cons.injEq _ _ _ _ ▸ h).1.symm
    rw [hc]; decide
  have h7 : stripPre [rb] [rb] = some [] := by decide
  simp only [parsePosInline, hstrip1, h1, h2, h3, h4, h5, h6, h7,
    Option.bind_eq_bind, Option.some_bind]

theorem jsonParsePos_round (v : PosVal) : jsonParsePos (posToJson v) = some v := by
  cases v with
  | empty => decide
  | obj p =>
    obtain ⟨fp, off, ln⟩ := p
    rw [jsonParsePos, parsePosInline_round fp off ln]

end Codec

namespace Codec

/-- Safety invariant for the reluctant-group scan: every newline inside
u is followed, within u, by at least three characters that do not start
three dashes.  Such a string contains no occurrence of the delimiter
token (newline then three dashes), no matter what is appended after
it. -/
def nlSafe (u : Str) : Prop :=
  ∀ p v, u.drop p = '\n' :: v → dash3.isPrefixOf v = false ∧ 3 ≤ v.length

theorem nlSafe_tail {c : Char} {u : Str} (h : nlSafe (c :: u)) : nlSafe u := by
  intro p v hv
  exact h (p + 1) v (by rw [List.drop_succ_cons]; exact hv)

theorem nlSafe_of_no_nl {u : Str} (h : '\n' ∉ u) : nlSafe u := by
  intro p v hv
  have hmem : '\n' ∈ u.drop p := by rw [hv]; exact List.mem_cons_self _ _
  exact absurd (List.drop_subset p u hmem) h

theorem nlSafe_glue {v : Str} (hv : nlSafe v) (hlen : 3 ≤ v.length)
    (hpre : dash3.isPrefixOf v = false) :
    ∀ u : Str, '\n' ∉ u → nlSafe (u ++ '\n' :: v) := by
  intro u
  induction u with
  | nil =>
    intro _ p w hw
    cases p with
    | zero =>
      rw [List.nil_append, List.drop_zero] at hw
      injection hw with _ h2
      subst h2
      exact ⟨hpre, hlen⟩
    | succ p =>
      rw [List.nil_append, List.drop_succ_cons] at hw
      exact hv p w hw
  | cons c u ih =>
    intro hu p w hw
    have hc : c ≠ '\n' := fun hh => hu (hh ▸ List.mem_cons_self c u)
    have hu2 : '\n' ∉ u := fun hh => hu (List.mem_cons_of_mem c hh)
    cases p with
    | zero =>
      rw [List.cons_append, List.drop_zero] at hw
      injection hw with h1 _
      exact absurd h1 hc
    | succ p =>
      rw [List.cons_append, List.drop_succ_cons] at hw
      exact ih hu2 p w hw

theorem nlSafe_no_occ {u : Str} (hu : nlSafe u) (z : Str) :
    ∀ p, p < u.length → nlDash3.isPrefixOf ((u ++ z).drop p) = false := by
  intro p hp
  rw [← Bool.not_eq_true, List.isPrefixOf_iff_prefix]
  intro hc
  obtain ⟨w, hw⟩ := hc
  have hdrop : (u ++ z).drop p = u.drop p ++ z :=
    List.drop_append_of_le_length (le_of_lt hp)
  obtain ⟨c, t, hct⟩ : ∃ c t, u.drop p = c :: t := by
    cases hd : u.drop p with
    | nil =>
      exfalso
      have hl := congrArg List.length hd
      rw [List.length_drop] at hl
      simp only [List.length_nil] at hl
      omega
    | cons c t => exact ⟨c, t, rfl⟩
  rw [hdrop, hct, List.cons_append,
    show nlDash3 = '\n' :: dash3 from rfl, List.cons_append, List.cons.injEq] at hw
  have hc1 : '\n' = c := hw.1
  have ht1 : dash3 ++ w = t ++ z := hw.2
  have hsafe := hu p t (by rw [hct, ← hc1])
  have hpfx : dash3 <+: t ++ z := ⟨w, ht1⟩
  have hpt : dash3 <+: t :=
    prefix_append_of_le z (by rw [show dash3.length = 3 from rfl]; exact hsafe.2) hpfx
  exact absurd ((List.isPrefixOf_iff_prefix).mpr hpt)
    (by rw [hsafe.1]; exact Bool.false_ne_true)

theorem lazyScanWs_skip {u : Str} (hu : nlSafe u) (v : Str) :
    lazyScanWs nlDash3 (u ++ v) = (lazyScanWs nlDash3 v).map (fun q => (u ++ q.1, q.2)) := by
  induction u with
  | nil =>
    cases h : lazyScanWs nlDash3 v <;> simp [h]
  | cons c u ih =>
    have hno : nlDash3.isPrefixOf (c :: (u ++ v)) = false := by
      have h0 := nlSafe_no_occ hu v 0 (by simp)
      rw [List.drop_zero, List.cons_append] at h0
      exact h0
    rw [List.cons_append]
    simp only [lazyScanWs]
    rw [if_neg (by rw [hno]; exact Bool.false_ne_true)]
    rw [ih (nlSafe_tail hu)]
    cases h : lazyScanWs nlDash3 v <;> simp [h]

theorem lazyScanWs_boundary {w w2 : Str} (hw : wsNl w = some w2) :
    lazyScanWs nlDash3 (nlDash3 ++ w) = some ([], w2) := by
  rw [show nlDash3 ++ w = '\n' :: (dash3 ++ w) from rfl]
  simp only [lazyScanWs]
  have hp : nlDash3.isPrefixOf ('\n' :: (dash3 ++ w)) = true :=
    (List.isPrefixOf_iff_prefix).mpr
      ⟨w, by rw [show nlDash3 = '\n' :: dash3 from rfl]; simp⟩
  rw [if_pos hp]
  have hd : ('\n' :: (dash3 ++ w)).drop nlDash3.length = w := by
    rw [show nlDash3.length = 4 from rfl,
      show dash3 = '-' :: '-' :: '-' :: [] from rfl]
    rfl
  rw [hd, hw]

theorem wsNl_nl {s : Str} (c : Char) (t : Str) (hs : s = c :: t) (hc : wsChar c = false) :
    wsNl ('\n' :: s) = some s := by
  subst hs
  rw [wsNl]
  rw [List.takeWhile_cons_of_pos (by decide)]
  rw [List.takeWhile_cons_of_neg (by rw [hc]; exact Bool.false_ne_true)]
  rfl

theorem wsNl_nlnl {s : Str} (c : Char) (t : Str) (hs : s = c :: t) (hc : wsChar c = false) :
    wsNl ('\n' :: '\n' :: s) = some s := by
  subst hs
  rw [wsNl]
  rw [List.takeWhile_cons_of_pos (by decide), List.takeWhile_cons_of_pos (by decide)]
  rw [List.takeWhile_cons_of_neg (by rw [hc]; exact Bool.false_ne_true)]
  rfl

theorem lazyScanTo_stop {tok s : Str} (h : tok.isPrefixOf s = true) (hs : s ≠ []) :
    lazyScanTo tok s = ([], s) := by
  cases s with
  | nil => exact absurd rfl hs
  | cons c t => simp only [lazyScanTo, if_pos h]

theorem lazyScanTo_boundary (T : Str)
    (hT : T = [] ∨ nlDash3.isPrefixOf T = true) :
    ∀ c : Str, (∀ p, p ≤ c.length → nlDash3.isPrefixOf ((c ++ '\n' :: T).drop p) = false) →
    lazyScanTo nlDash3 (c ++ '\n' :: T) = (c ++ ['\n'], T) := by
  intro c
  induction c with
  | nil =>
    intro hno
    rw [List.nil_append]
    have h0 := hno 0 (by simp)
    rw [List.nil_append, List.drop_zero] at h0
    simp only [lazyScanTo]
    rw [if_neg (by rw [h0]; exact Bool.false_ne_true)]
    rcases hT with rfl | hT
    · simp [lazyScanTo]
    · rw [lazyScanTo_stop hT (by
        intro hh
        subst hh
        exact absurd hT (by decide))]
      simp
  | cons d c ih =>
    intro hno
    have h0 := hno 0 (by simp)
    rw [List.drop_zero, List.cons_append] at h0
    rw [List.cons_append]
    simp only [lazyScanTo]
    rw [if_neg (by rw [h0]; exact Bool.false_ne_true)]
    rw [ih (by
      intro p hp
      have := hno (p + 1) (by simp; omega)
      rw [List.cons_append, List.drop_succ_cons] at this
      exact this)]
    simp

theorem content_no_delim {c : Str} (T : Str) (hsub : firstSub nlDash3 c = none)
    (hT : T = [] ∨ ∃ X, T = '\n' :: X) :
    ∀ p, p ≤ c.length → nlDash3.isPrefixOf ((c ++ '\n' :: T).drop p) = false := by
  intro p hp
  rw [← Bool.not_eq_true, List.isPrefixOf_iff_prefix]
  intro hpfx
  obtain ⟨w, hw⟩ := hpfx
  have hdrop : (c ++ '\n' :: T).drop p = c.drop p ++ '\n' :: T :=
    List.drop_append_of_le_length hp
  rw [hdrop] at hw
  by_cases hk4 : 4 ≤ c.length - p
  · have hlen : nlDash3.length ≤ (c.drop p).length := by
      rw [List.length_drop, show nlDash3.length = 4 from rfl]
      omega
    have hpfx2 : nlDash3 <+: c.drop p :=
      prefix_append_of_le _ hlen ⟨w, hw⟩
    have hall := firstSub_none_all (by decide) hsub p
    exact absurd ((List.isPrefixOf_iff_prefix).mpr hpfx2)
      (by rw [hall]; exact Bool.false_ne_true)
  · set k := c.length - p with hkdef
    have hkk : k ≤ 3 := by omega
    have hlen2 : (c.drop p).length = k := by rw [List.length_drop]
    have hL : (nlDash3 ++ w)[k]? = some '\n' := by
      rw [hw, List.getElem?_append_right (le_of_eq hlen2), hlen2, Nat.sub_self]
      simp
    interval_cases k
    · have hnil : c.drop p = [] := List.length_eq_zero.mp hlen2
      rw [hnil, List.nil_append,
        show nlDash3 = '\n' :: dash3 from rfl, List.cons_append] at hw
      rw [List.cons.injEq] at hw
      have h2 : dash3 ++ w = T := hw.2
      rcases hT with rfl | ⟨X, rfl⟩
      · have := congrArg List.length h2
        simp [dash3] at this
      · rw [show dash3 = '-' :: '-' :: '-' :: [] from rfl, List.cons_append,
          List.cons.injEq] at h2
        exact absurd h2.1 (by decide)
    all_goals rw [show nlDash3 ++ w = '\n' :: '-' :: '-' :: '-' :: w from rfl] at hL
    all_goals simp at hL

end Codec

namespace Codec

theorem contains_eq_false {c : Char} {s : Str} (h : c ∉ s) : s.contains c = false := by
  simpa using h

theorem escapeYaml_eq {s : Str} (h1 : ':' ∉ s) (h2 : '#' ∉ s) (h3 : '\n' ∉ s)
    (h4 : '"' ∉ s) : escapeYaml s = s := by
  rw [escapeYaml, contains_eq_false h1, contains_eq_false h2,
    contains_eq_false h3, contains_eq_false h4]
  simp

theorem no_nl_append {a b : Str} (ha : '\n' ∉ a) (hb : '\n' ∉ b) : '\n' ∉ a ++ b := by
  intro h
  rcases List.mem_append.mp h with h | h
  · exact ha h
  · exact hb h

theorem natToStr_no_nl (n : Nat) : '\n' ∉ natToStr n := by
  intro hm
  have hd := natToStr_digits hm
  have h10 : ('\n').toNat = 10 := by decide
  omega

theorem posToJson_no_nl : ∀ {v : PosVal}, wfPosVal v → '\n' ∉ posToJson v := by
  intro v hv
  cases v with
  | empty => decide
  | obj p =>
    intro hmem
    have hb1 : '\n' ∉ (p.file_path.map jsonEscChar).flatten := by
      intro hm
      rw [List.mem_flatten] at hm
      obtain ⟨l, hl, hc⟩ := hm
      rw [List.mem_map] at hl
      obtain ⟨c, hcf, rfl⟩ := hl
      have hcn := hv c hcf
      rw [jsonEscChar] at hc
      by_cases hcc : (c = '"' || c = '\\') = true
      · rw [if_pos hcc] at hc
        simp only [List.mem_cons, List.not_mem_nil, or_false] at hc
        rcases hc with hc | hc
        · exact absurd hc (by decide)
        · rw [← hc] at hcn
          exact absurd hcn (by decide)
      · rw [if_neg hcc] at hc
        simp only [List.mem_singleton] at hc
        rw [← hc] at hcn
        exact absurd hcn (by decide)
    have hb2 : '\n' ∉ natToStr p.offset := natToStr_no_nl _
    have hb3 : '\n' ∉ natToStr p.line_number := natToStr_no_nl _
    have hl1 : '\n' ∉ "\"file_path\":".toList := by decide
    have hl2 : '\n' ∉ ",\"offset\":".toList := by decide
    have hl3 : '\n' ∉ ",\"line_number\":".toList := by decide
    have e1 : ¬('\n' = lb) := by decide
    have e2 : ¬('\n' = rb) := by decide
    have e3 : ¬('\n' = '"') := by decide
    have e4 : ¬('\n' = '\\') := by decide
    simp only [posToJson, jsonString, List.cons_append, List.append_assoc,
      List.mem_cons, List.mem_append, List.mem_singleton, List.not_mem_nil] at hmem
    simp [hb1, hb2, hb3, hl1, hl2, hl3, e1, e2, e3, e4] at hmem

theorem posToJson_head (v : PosVal) : ∃ t, posToJson v = lb :: t := by
  cases v with
  | empty => exact ⟨[rb], rfl⟩
  | obj p => exact ⟨_, rfl⟩

theorem posToJson_rev (v : PosVal) : ∃ t, (posToJson v).reverse = rb :: t := by
  cases v with
  | empty => exact ⟨[lb], rfl⟩
  | obj p =>
    have h : (posToJson (.obj p)).reverse
        = rb :: ((lb :: "\"file_path\":".toList ++ jsonString p.file_path
          ++ ",\"offset\":".toList ++ natToStr p.offset
          ++ ",\"line_number\":".toList ++ natToStr p.line_number).reverse) := by
      simp [posToJson]
    exact ⟨_, h⟩

theorem posToJson_trimStable (v : PosVal) : jsTrim (posToJson v) = posToJson v := by
  apply jsTrim_stable_of_ends
  · obtain ⟨t, ht⟩ := posToJson_head v
    rw [ht, List.dropWhile_cons_of_neg (by decide)]
  · obtain ⟨t, ht⟩ := posToJson_rev v
    rw [ht, List.dropWhile_cons_of_neg (by decide)]

def line1 (a : Annotation) : Str := "annotation_id: ".toList ++ a.annotation_id

def line2 (a : Annotation) : Str := "selected_text: ".toList ++ escapeYaml a.selected_text

def line3 (a : Annotation) : Str := "position: ".toList ++ posToJson a.position

def line4 (a : Annotation) : Str := "created: ".toList ++ a.created

def line5 (a : Annotation) : Str := "updated: ".toList ++ a.updated

theorem yamlOf_eq (a : Annotation) : yamlOf a
    = line1 a ++ '\n' :: (line2 a ++ '\n' :: (line3 a ++ '\n' :: (line4 a
      ++ '\n' :: line5 a))) := by
  simp [yamlOf, line1, line2, line3, line4, line5, List.append_assoc, List.cons_append]

theorem dash3_not_prefix_cons {c : Char} (t : Str) (hc : c ≠ '-') :
    dash3.isPrefixOf (c :: t) = false := by
  have hbe : ('-' == c) = false := beq_eq_false_iff_ne.mpr (Ne.symm hc)
  rw [show dash3 = '-' :: '-' :: '-' :: [] from rfl]
  simp [List.isPrefixOf, hbe]

end Codec

namespace Codec

theorem lines_no_nl {a : Annotation} (hr : wfRecord a) :
    '\n' ∉ line1 a ∧ '\n' ∉ line2 a ∧ '\n' ∉ line3 a ∧ '\n' ∉ line4 a ∧ '\n' ∉ line5 a := by
  obtain ⟨⟨hid1, hid2, hid3⟩, ⟨hs1, hs2, hs3, hs4, hs5⟩, hpv,
    ⟨hcr1, hcr2, hcr3⟩, ⟨hup1, hup2, hup3⟩, hco⟩ := hr
  have hesc : escapeYaml a.selected_text = a.selected_text := escapeYaml_eq hs2 hs3 hs1 hs4
  refine ⟨no_nl_append (by decide) hid2, ?_, no_nl_append (by decide) (posToJson_no_nl hpv),
    no_nl_append (by decide) hcr2, no_nl_append (by decide) hup2⟩
  rw [line2, hesc]
  exact no_nl_append (by decide) hs1

theorem yamlOf_nlSafe {a : Annotation} (hr : wfRecord a) : nlSafe (yamlOf a) := by
  obtain ⟨h1n, h2n, h3n, h4n, h5n⟩ := lines_no_nl hr
  have n5 : nlSafe (line5 a) := nlSafe_of_no_nl h5n
  have hlen5 : 3 ≤ (line5 a).length := by
    rw [line5, List.length_append]
    have h9 : ("updated: ".toList).length = 9 := by decide
    omega
  have hpre5 : dash3.isPrefixOf (line5 a) = false := by
    obtain ⟨t, ht⟩ : ∃ t, line5 a = 'u' :: t := ⟨_, rfl⟩
    rw [ht]; exact dash3_not_prefix_cons t (by decide)
  have g4 : nlSafe (line4 a ++ '\n' :: line5 a) :=
    nlSafe_glue n5 hlen5 hpre5 (line4 a) h4n
  have hlen4 : 3 ≤ (line4 a ++ '\n' :: line5 a).length := by
    rw [List.length_append, List.length_cons]; omega
  have hpre4 : dash3.isPrefixOf (line4 a ++ '\n' :: line5 a) = false := by
    obtain ⟨t, ht⟩ : ∃ t, line4 a ++ '\n' :: line5 a = 'c' :: t := ⟨_, rfl⟩
    rw [ht]; exact dash3_not_prefix_cons t (by decide)
  have g3 : nlSafe (line3 a ++ '\n' :: (line4 a ++ '\n' :: line5 a)) :=
    nlSafe_glue g4 hlen4 hpre4 (line3 a) h3n
  have hlen3 : 3 ≤ (line3 a ++ '\n' :: (line4 a ++ '\n' :: line5 a)).length := by
    rw [List.length_append, List.length_cons]; omega
  have hpre3 : dash3.isPrefixOf (line3 a ++ '\n' :: (line4 a ++ '\n' :: line5 a)) = false := by
    obtain ⟨t, ht⟩ : ∃ t, line3 a ++ '\n' :: (line4 a ++ '\n' :: line5 a) = 'p' :: t := ⟨_, rfl⟩
    rw [ht]; exact dash3_not_prefix_cons t (by decide)
  have g2 : nlSafe (line2 a ++ '\n' :: (line3 a ++ '\n' :: (line4 a ++ '\n' :: line5 a))) :=
    nlSafe_glue g3 hlen3 hpre3 (line2 a) h2n
  have hlen2 : 3 ≤ (line2 a ++ '\n' :: (line3 a
      ++ '\n' :: (line4 a ++ '\n' :: line5 a))).length := by
    rw [List.length_append, List.length_cons]; omega
  have hpre2 : dash3.isPrefixOf (line2 a ++ '\n' :: (line3 a
      ++ '\n' :: (line4 a ++ '\n' :: line5 a))) = false := by
    obtain ⟨t, ht⟩ : ∃ t, line2 a ++ '\n' :: (line3 a
        ++ '\n' :: (line4 a ++ '\n' :: line5 a)) = 's' :: t := ⟨_, rfl⟩
    rw [ht]; exact dash3_not_prefix_cons t (by decide)
  have g1 := nlSafe_glue g2 hlen2 hpre2 (line1 a) h1n
  rw [yamlOf_eq]
  exact g1

theorem yamlOf_len {a : Annotation} : 3 ≤ (yamlOf a).length := by
  rw [yamlOf_eq, List.length_append, List.length_cons, line1, List.length_append]
  have hl15 : ("annotation_id: ".toList).length = 15 := by decide
  omega

theorem yamlOf_head (a : Annotation) : ∃ t, yamlOf a = 'a' :: t := by
  rw [yamlOf_eq]; exact ⟨_, rfl⟩

theorem strayYaml_nlSafe {a : Annotation} (hr : wfRecord a) :
    nlSafe (dash3 ++ '\n' :: yamlOf a) := by
  have hpre : dash3.isPrefixOf (yamlOf a) = false := by
    obtain ⟨t, ht⟩ := yamlOf_head a
    rw [ht]; exact dash3_not_prefix_cons t (by decide)
  exact nlSafe_glue (yamlOf_nlSafe hr) yamlOf_len hpre dash3 (by decide)

theorem splitNl_yamlOf {a : Annotation} (hr : wfRecord a) :
    splitNl (yamlOf a) = [line1 a, line2 a, line3 a, line4 a, line5 a] := by
  obtain ⟨h1n, h2n, h3n, h4n, h5n⟩ := lines_no_nl hr
  rw [yamlOf_eq, splitNl_append _ h1n, splitNl_append _ h2n, splitNl_append _ h3n,
    splitNl_append _ h4n, splitNl_single h5n]

theorem splitNl_strayYamlOf {a : Annotation} (hr : wfRecord a) :
    splitNl (dash3 ++ '\n' :: yamlOf a)
      = dash3 :: [line1 a, line2 a, line3 a, line4 a, line5 a] := by
  rw [splitNl_append _ (by decide), splitNl_yamlOf hr]

theorem firstSub_colon {k : Str} (hk : ':' ∉ k) (rest : Str) :
    firstSub [':'] (k ++ ':' :: rest) = some k.length := by
  induction k with
  | nil => simp [firstSub, List.isPrefixOf]
  | cons c t ih =>
    have hc : c ≠ ':' := fun hh => hk (hh ▸ List.mem_cons_self c t)
    have ht : ':' ∉ t := fun hh => hk (List.mem_cons_of_mem c hh)
    have hbe : (':' == c) = false := beq_eq_false_iff_ne.mpr (Ne.symm hc)
    rw [List.cons_append]
    simp only [firstSub]
    rw [if_neg (by simp [List.isPrefixOf, hbe])]
    rw [ih ht]
    simp

theorem lineKV_keyval {k : Str} (hk : ':' ∉ k) (hkne : k ≠ []) (v : Str) :
    lineKV (k ++ ':' :: ' ' :: v) = some (jsTrim k, jsTrim (' ' :: v)) := by
  have hkpos : 0 < k.length := by
    cases k with
    | nil => exact absurd rfl hkne
    | cons c t => simp
  simp only [lineKV, firstSub_colon hk (' ' :: v)]
  rw [if_pos hkpos]
  rw [List.take_left k (':' :: ' ' :: v), List.drop_append,
    show (':' :: ' ' :: v).drop 1 = ' ' :: v from rfl]

end Codec

namespace Codec

theorem applyLine_line1 (m : YamlMeta) {v : Str} (hv : jsTrim v = v) :
    applyLine m ("annotation_id: ".toList ++ v) = { m with annotation_id := some v } := by
  have hsh : "annotation_id: ".toList ++ v = "annotation_id".toList ++ ':' :: ' ' :: v := rfl
  have hkv := lineKV_keyval (show ':' ∉ "annotation_id".toList by decide) (by decide) v
  rw [hsh]
  simp only [applyLine, hkv]
  rw [show jsTrim ("annotation_id".toList) = "annotation_id".toList from by decide]
  rw [jsTrim_ws_cons (by decide) hv]
  rw [if_neg (by decide), if_pos rfl]

theorem applyLine_line2 (m : YamlMeta) {v : Str} (hv : jsTrim v = v) :
    applyLine m ("selected_text: ".toList ++ v) = { m with selected_text := some v } := by
  have hsh : "selected_text: ".toList ++ v = "selected_text".toList ++ ':' :: ' ' :: v := rfl
  have hkv := lineKV_keyval (show ':' ∉ "selected_text".toList by decide) (by decide) v
  rw [hsh]
  simp only [applyLine, hkv]
  rw [show jsTrim ("selected_text".toList) = "selected_text".toList from by decide]
  rw [jsTrim_ws_cons (by decide) hv]
  rw [if_neg (by decide), if_neg (by decide), if_pos rfl]

theorem applyLine_line3 (m : YamlMeta) (pos : PosVal) :
    applyLine m ("position: ".toList ++ posToJson pos) = { m with position := some pos } := by
  have hsh : "position: ".toList ++ posToJson pos
      = "position".toList ++ ':' :: ' ' :: posToJson pos := rfl
  have hkv := lineKV_keyval (show ':' ∉ "position".toList by decide) (by decide) (posToJson pos)
  rw [hsh]
  simp only [applyLine, hkv]
  rw [show jsTrim ("position".toList) = "position".toList from by decide]
  rw [jsTrim_ws_cons (by decide) (posToJson_trimStable pos)]
  rw [if_pos rfl, jsonParsePos_round]
  simp

theorem applyLine_line4 (m : YamlMeta) {v : Str} (hv : jsTrim v = v) :
    applyLine m ("created: ".toList ++ v) = { m with created := some v } := by
  have hsh : "created: ".toList ++ v = "created".toList ++ ':' :: ' ' :: v := rfl
  have hkv := lineKV_keyval (show ':' ∉ "created".toList by decide) (by decide) v
  rw [hsh]
  simp only [applyLine, hkv]
  rw [show jsTrim ("created".toList) = "created".toList from by decide]
  rw [jsTrim_ws_cons (by decide) hv]
  rw [if_neg (by decide), if_neg (by decide), if_neg (by decide), if_pos rfl]

theorem applyLine_line5 (m : YamlMeta) {v : Str} (hv : jsTrim v = v) :
    applyLine m ("updated: ".toList ++ v) = { m with updated := some v } := by
  have hsh : "updated: ".toList ++ v = "updated".toList ++ ':' :: ' ' :: v := rfl
  have hkv := lineKV_keyval (show ':' ∉ "updated".toList by decide) (by decide) v
  rw [hsh]
  simp only [applyLine, hkv]
  rw [show jsTrim ("updated".toList) = "updated".toList from by decide]
  rw [jsTrim_ws_cons (by decide) hv]
  rw [if_neg (by decide), if_neg (by decide), if_neg (by decide), if_neg (by decide),
    if_pos rfl]

theorem applyLine_dash3 (m : YamlMeta) : applyLine m dash3 = m := by
  have hkv : lineKV dash3 = none := by decide
  simp only [applyLine, hkv]

theorem foldl_lines {a : Annotation} (hr : wfRecord a) (m : YamlMeta) :
    [line1 a, line2 a, line3 a, line4 a, line5 a].foldl applyLine m
      = { annotation_id := some a.annotation_id, selected_text := some a.selected_text,
          position := some a.position, created := some a.created,
          updated := some a.updated } := by
  obtain ⟨⟨hid1, hid2, hid3⟩, ⟨hs1, hs2, hs3, hs4, hs5⟩, hpv,
    ⟨hcr1, hcr2, hcr3⟩, ⟨hup1, hup2, hup3⟩, hco⟩ := hr
  have hesc : escapeYaml a.selected_text = a.selected_text := escapeYaml_eq hs2 hs3 hs1 hs4
  rw [List.foldl_cons, line1, applyLine_line1 m hid3]
  rw [List.foldl_cons, line2, hesc, applyLine_line2 _ hs5]
  rw [List.foldl_cons, line3, applyLine_line3 _ a.position]
  rw [List.foldl_cons, line4, applyLine_line4 _ hcr3]
  rw [List.foldl_cons, line5, applyLine_line5 _ hup3]
  rw [List.foldl_nil]

theorem jsOr_some_self (v : Str) : jsOr (some v) [] = v := by
  rw [jsOr]
  by_cases h : v = []
  · rw [if_pos h, h]
  · rw [if_neg h]

theorem jsOr_some_of_ne {v : Str} (h : v ≠ []) (d : Str) : jsOr (some v) d = v := by
  rw [jsOr, if_neg h]

theorem jsOrPos_some (v : PosVal) : jsOrPos (some v) = v := rfl

theorem parseYamlFrontmatter_yamlOf (now : Str) {a : Annotation} (hr : wfRecord a)
    (c : Str) : parseYamlFrontmatter now (yamlOf a) c = some { a with content := c } := by
  have hid1 : a.annotation_id ≠ [] := hr.1.1
  have hcr1 : a.created ≠ [] := hr.2.2.2.1.1
  have hup1 : a.updated ≠ [] := hr.2.2.2.2.1.1
  simp only [parseYamlFrontmatter, splitNl_yamlOf hr, foldl_lines hr]
  rw [if_neg hid1]
  rw [jsOr_some_self, jsOr_some_of_ne hcr1, jsOr_some_of_ne hup1, jsOrPos_some]

theorem parseYamlFrontmatter_stray (now : Str) {a : Annotation} (hr : wfRecord a)
    (c : Str) :
    parseYamlFrontmatter now (dash3 ++ '\n' :: yamlOf a) c = some { a with content := c } := by
  have hid1 : a.annotation_id ≠ [] := hr.1.1
  have hcr1 : a.created ≠ [] := hr.2.2.2.1.1
  have hup1 : a.updated ≠ [] := hr.2.2.2.2.1.1
  have hfold : (dash3 :: [line1 a, line2 a, line3 a, line4 a, line5 a]).foldl applyLine {}
      = { annotation_id := some a.annotation_id, selected_text := some a.selected_text,
          position := some a.position, created := some a.created,
          updated := some a.updated } := by
    rw [List.foldl_cons, applyLine_dash3, foldl_lines hr]
  simp only [parseYamlFrontmatter, splitNl_strayYamlOf hr, hfold]
  rw [if_neg hid1]
  rw [jsOr_some_self, jsOr_some_of_ne hcr1, jsOr_some_of_ne hup1, jsOrPos_some]

end Codec

namespace Codec

theorem firstSub_of_hasSub_false {pat s : Str} (h : hasSub pat s = false) :
    firstSub pat s = none := by
  rw [hasSub] at h
  cases hfs : firstSub pat s with
  | none => rfl
  | some k => rw [hfs] at h; simp at h

theorem blockOf_eq (a : Annotation) (T : Str) : blockOf a ++ T
    = dash3 ++ ('\n' :: (yamlOf a
        ++ (nlDash3 ++ ('\n' :: '\n' :: (a.content ++ ('\n' :: T)))))) := by
  simp [blockOf, nlDash3, List.append_assoc, List.cons_append, List.singleton_append]

theorem blockOf_eq2 (a : Annotation) (T : Str) : blockOf a ++ T
    = (dash3 ++ '\n' :: yamlOf a)
        ++ (nlDash3 ++ ('\n' :: '\n' :: (a.content ++ ('\n' :: T)))) := by
  simp [blockOf, nlDash3, List.append_assoc, List.cons_append, List.singleton_append]

theorem content_wsNl {a : Annotation} (hr : wfRecord a) (T : Str) :
    wsNl ('\n' :: '\n' :: (a.content ++ ('\n' :: T))) = some (a.content ++ ('\n' :: T)) := by
  have hco := hr.2.2.2.2.2
  obtain ⟨cc, ct, hcc⟩ : ∃ c t, a.content = c :: t := by
    cases hc : a.content with
    | nil => exact absurd hc hco.1
    | cons c t => exact ⟨c, t, rfl⟩
  exact wsNl_nlnl cc (ct ++ '\n' :: T) (by rw [hcc, List.cons_append])
    (trimStable_head hco.2.1 hcc)

theorem content_scanTo {a : Annotation} (hr : wfRecord a) (T : Str)
    (hT : T = [] ∨ ∃ X, T = sepStr ++ X) :
    lazyScanTo nlDash3 (a.content ++ ('\n' :: T)) = (a.content ++ ['\n'], T) := by
  have hco := hr.2.2.2.2.2
  have hT2 : T = [] ∨ nlDash3.isPrefixOf T = true := by
    rcases hT with rfl | ⟨X, rfl⟩
    · exact Or.inl rfl
    · right
      rw [show sepStr ++ X = nlDash3 ++ ('\n' :: '\n' :: X) from rfl]
      exact (List.isPrefixOf_iff_prefix).mpr (List.prefix_append _ _)
  have hTshape : T = [] ∨ ∃ X, T = '\n' :: X := by
    rcases hT with rfl | ⟨X, rfl⟩
    · exact Or.inl rfl
    · exact Or.inr ⟨_, rfl⟩
  exact lazyScanTo_boundary T hT2 a.content
    (content_no_delim T (firstSub_of_hasSub_false hco.2.2.2) hTshape)

theorem matchAt_block {a : Annotation} (hr : wfRecord a) (T : Str)
    (hT : T = [] ∨ ∃ X, T = sepStr ++ X) :
    matchAt (blockOf a ++ T) = some (yamlOf a, a.content ++ ['\n'], T) := by
  rw [blockOf_eq]
  have h1 := stripPre_append dash3
    ('\n' :: (yamlOf a ++ (nlDash3 ++ ('\n' :: '\n' :: (a.content ++ ('\n' :: T))))))
  obtain ⟨t0, ht0⟩ := yamlOf_head a
  have h2 : wsNl ('\n' :: (yamlOf a
      ++ (nlDash3 ++ ('\n' :: '\n' :: (a.content ++ ('\n' :: T))))))
      = some (yamlOf a ++ (nlDash3 ++ ('\n' :: '\n' :: (a.content ++ ('\n' :: T))))) :=
    wsNl_nl 'a' _ (by rw [ht0, List.cons_append]) (by decide)
  have h3 : lazyScanWs nlDash3 (yamlOf a
      ++ (nlDash3 ++ ('\n' :: '\n' :: (a.content ++ ('\n' :: T)))))
      = some (yamlOf a, a.content ++ ('\n' :: T)) := by
    rw [lazyScanWs_skip (yamlOf_nlSafe hr), lazyScanWs_boundary (content_wsNl hr T)]
    simp
  have h4 := content_scanTo hr T hT
  simp only [matchAt, h1, h2, h3, h4, Option.bind_eq_bind, Option.some_bind]

theorem matchAt_sepTail {a : Annotation} (hr : wfRecord a) (T : Str)
    (hT : T = [] ∨ ∃ X, T = sepStr ++ X) :
    matchAt (dash3 ++ ('\n' :: '\n' :: (blockOf a ++ T)))
      = some (dash3 ++ '\n' :: yamlOf a, a.content ++ ['\n'], T) := by
  have h1 := stripPre_append dash3 ('\n' :: '\n' :: (blockOf a ++ T))
  have h2 : wsNl ('\n' :: '\n' :: (blockOf a ++ T)) = some (blockOf a ++ T) := by
    obtain ⟨t1, ht1⟩ : ∃ t1, blockOf a ++ T = '-' :: t1 := ⟨_, rfl⟩
    exact wsNl_nlnl '-' t1 ht1 (by decide)
  have h3 : lazyScanWs nlDash3 (blockOf a ++ T)
      = some (dash3 ++ '\n' :: yamlOf a, a.content ++ ('\n' :: T)) := by
    rw [blockOf_eq2, lazyScanWs_skip (strayYaml_nlSafe hr),
      lazyScanWs_boundary (content_wsNl hr T)]
    simp
  have h4 := content_scanTo hr T hT
  simp only [matchAt, h1, h2, h3, h4, Option.bind_eq_bind, Option.some_bind]

theorem findMatch_cons (c : Char) (t : Str) :
    findMatch (c :: t) = match matchAt (c :: t) with
      | some m => some m
      | none => findMatch t := rfl

theorem findMatch_block {a : Annotation} (hr : wfRecord a) (T : Str)
    (hT : T = [] ∨ ∃ X, T = sepStr ++ X) :
    findMatch (blockOf a ++ T) = some (yamlOf a, a.content ++ ['\n'], T) := by
  obtain ⟨t, ht⟩ : ∃ t, blockOf a ++ T = '-' :: t := ⟨_, rfl⟩
  rw [ht, findMatch_cons, ← ht, matchAt_block hr T hT]

theorem findMatch_sep {a : Annotation} (hr : wfRecord a) (T : Str)
    (hT : T = [] ∨ ∃ X, T = sepStr ++ X) :
    findMatch (sepStr ++ (blockOf a ++ T))
      = some (dash3 ++ '\n' :: yamlOf a, a.content ++ ['\n'], T) := by
  have hsh : sepStr ++ (blockOf a ++ T)
      = '\n' :: (dash3 ++ ('\n' :: '\n' :: (blockOf a ++ T))) := rfl
  have hpf : dash3.isPrefixOf ('\n' :: (dash3 ++ ('\n' :: '\n' :: (blockOf a ++ T)))) = false :=
    dash3_not_prefix_cons _ (by decide)
  have hnone : matchAt ('\n' :: (dash3 ++ ('\n' :: '\n' :: (blockOf a ++ T)))) = none := by
    simp [matchAt, stripPre, hpf]
  rw [hsh, findMatch_cons, hnone]
  obtain ⟨t2, ht2⟩ : ∃ t2, dash3 ++ ('\n' :: '\n' :: (blockOf a ++ T)) = '-' :: t2 := ⟨_, rfl⟩
  rw [ht2, findMatch_cons, ← ht2, matchAt_sepTail hr T hT]

end Codec

namespace Codec

theorem intercalate_cons2 (sep x y : Str) (l : List Str) :
    List.intercalate sep (x :: y :: l) = x ++ (sep ++ List.intercalate sep (y :: l)) := by
  simp [List.intercalate, List.intersperse, List.append_assoc]

theorem serialize_cons (r : Annotation) (rs : List Annotation) :
    serializeAnnotations (r :: rs)
      = blockOf r ++ (if rs = [] then [] else sepStr ++ serializeAnnotations rs) := by
  by_cases h : rs = []
  · subst h
    simp [serializeAnnotations, List.intercalate, List.intersperse]
  · rw [if_neg h]
    obtain ⟨r2, rs2, rfl⟩ : ∃ r2 rs2, rs = r2 :: rs2 := by
      cases rs with
      | nil => exact absurd rfl h
      | cons a b => exact ⟨a, b, rfl⟩
    rw [serializeAnnotations, serializeAnnotations]
    rw [if_neg (by simp), if_neg (by simp)]
    simp only [List.map_cons]
    exact intercalate_cons2 sepStr (blockOf r) (blockOf r2) (rs2.map blockOf)

theorem execFuel_nil_input (fuel : Nat) : execFuel fuel [] = [] := by
  cases fuel with
  | zero => rfl
  | succ f => simp [execFuel, findMatch]

theorem execFuel_tail : ∀ (rs : List Annotation) (fuel : Nat), (∀ r ∈ rs, wfRecord r) →
    rs.length ≤ fuel → rs ≠ [] →
    execFuel fuel (sepStr ++ serializeAnnotations rs)
      = rs.map (fun r => (dash3 ++ '\n' :: yamlOf r, r.content ++ ['\n'])) := by
  intro rs
  induction rs with
  | nil => intro fuel _ _ hne; exact absurd rfl hne
  | cons r rs ih =>
    intro fuel hwf hfuel _
    obtain ⟨f, rfl⟩ : ∃ f, fuel = f + 1 := by
      cases fuel with
      | zero => simp at hfuel
      | succ f => exact ⟨f, rfl⟩
    have hr := hwf r (List.mem_cons_self _ _)
    have hT : (if rs = [] then ([] : Str) else sepStr ++ serializeAnnotations rs) = []
        ∨ ∃ X, (if rs = [] then ([] : Str) else sepStr ++ serializeAnnotations rs)
          = sepStr ++ X := by
      by_cases h : rs = []
      · rw [if_pos h]; exact Or.inl rfl
      · rw [if_neg h]; exact Or.inr ⟨_, rfl⟩
    have hstep : execFuel (f + 1) (sepStr ++ serializeAnnotations (r :: rs))
        = (dash3 ++ '\n' :: yamlOf r, r.content ++ ['\n'])
          :: execFuel f (if rs = [] then [] else sepStr ++ serializeAnnotations rs) := by
      rw [serialize_cons]
      simp only [execFuel]
      rw [findMatch_sep hr _ hT]
    rw [hstep]
    by_cases h : rs = []
    · subst h
      simp [execFuel_nil_input]
    · rw [if_neg h, ih f (fun x hx => hwf x (List.mem_cons_of_mem _ hx))
        (by simp only [List.length_cons] at hfuel; omega) h]
      simp

end Codec

namespace Codec

theorem le_serialize_length : ∀ rs : List Annotation,
    rs.length ≤ (serializeAnnotations rs).length := by
  intro rs
  induction rs with
  | nil => simp [serializeAnnotations]
  | cons r rs ih =>
    rw [serialize_cons, List.length_append]
    have hb : 1 ≤ (blockOf r).length := by
      obtain ⟨t, ht⟩ : ∃ t, blockOf r = '-' :: t := ⟨_, rfl⟩
      rw [ht]; simp
    by_cases h : rs = []
    · subst h; simp; omega
    · rw [if_neg h, List.length_append]
      have hs6 : sepStr.length = 6 := by decide
      simp only [List.length_cons]
      omega

theorem execFuel_serialize (r : Annotation) (rs : List Annotation) (fuel : Nat)
    (hwf : ∀ x ∈ r :: rs, wfRecord x) (hfuel : (r :: rs).length ≤ fuel) :
    execFuel fuel (serializeAnnotations (r :: rs))
      = (yamlOf r, r.content ++ ['\n'])
        :: rs.map (fun x => (dash3 ++ '\n' :: yamlOf x, x.content ++ ['\n'])) := by
  obtain ⟨f, rfl⟩ : ∃ f, fuel = f + 1 := by
    cases fuel with
    | zero => simp at hfuel
    | succ f => exact ⟨f, rfl⟩
  have hr := hwf r (List.mem_cons_self _ _)
  have hT : (if rs = [] then ([] : Str) else sepStr ++ serializeAnnotations rs) = []
      ∨ ∃ X, (if rs = [] then ([] : Str) else sepStr ++ serializeAnnotations rs)
        = sepStr ++ X := by
    by_cases h : rs = []
    · rw [if_pos h]; exact Or.inl rfl
    · rw [if_neg h]; exact Or.inr ⟨_, rfl⟩
  have hstep : execFuel (f + 1) (serializeAnnotations (r :: rs))
      = (yamlOf r, r.content ++ ['\n'])
        :: execFuel f (if rs = [] then [] else sepStr ++ serializeAnnotations rs) := by
    rw [serialize_cons]
    simp only [execFuel]
    rw [findMatch_block hr _ hT]
  rw [hstep]
  by_cases h : rs = []
  · subst h
    simp [execFuel_nil_input]
  · rw [if_neg h, execFuel_tail rs f (fun x hx => hwf x (List.mem_cons_of_mem _ hx))
      (by simp only [List.length_cons] at hfuel; omega) h]

theorem filterMap_sepPairs (now : Str) : ∀ rs : List Annotation, (∀ r ∈ rs, wfRecord r) →
    (rs.map (fun r => (dash3 ++ '\n' :: yamlOf r, r.content ++ ['\n']))).filterMap
      (fun p => parseYamlFrontmatter now p.1 (jsTrim p.2)) = rs := by
  intro rs
  induction rs with
  | nil => intro _; rfl
  | cons r rs ih =>
    intro hwf
    have hr := hwf r (List.mem_cons_self _ _)
    simp only [List.map_cons, List.filterMap_cons]
    rw [jsTrim_append_nl hr.2.2.2.2.2.2.1, parseYamlFrontmatter_stray now hr]
    rw [ih (fun x hx => hwf x (List.mem_cons_of_mem _ hx))]

end Codec

/-- C1 (amended): serializing a list of well-formed records and parsing
the result back yields exactly the original list.  Well-formedness
(wfRecord) asks: nonempty single-line trim-stable annotation_id and
timestamps; selected text that is single-line, trim-stable and free of
the characters that make escapeYaml quote it; a printable file path in
the position; and nonempty trim-stable content none of whose lines
starts with three dashes.  Without these restrictions the round trip
fails (C1_counterexample). -/
theorem C1_roundtrip_wf (now : Str) (rs : List Codec.Annotation)
    (h : ∀ r ∈ rs, Codec.wfRecord r) :
    Codec.parseAnnotations now (Codec.serializeAnnotations rs) = rs := by
  cases rs with
  | nil => rfl
  | cons r rs2 =>
    have hfuel : (r :: rs2).length ≤ (Codec.serializeAnnotations (r :: rs2)).length + 1 := by
      have hle := Codec.le_serialize_length (r :: rs2)
      omega
    simp only [Codec.parseAnnotations]
    rw [Codec.execFuel_serialize r rs2 _ h hfuel]
    simp only [List.filterMap_cons]
    have hr := h r (List.mem_cons_self _ _)
    rw [Codec.jsTrim_append_nl hr.2.2.2.2.2.2.1,
      Codec.parseYamlFrontmatter_yamlOf now hr,
      Codec.filterMap_sepPairs now rs2 (fun x hx => h x (List.mem_cons_of_mem _ hx))]
    simp

/-- Witness for C1_roundtrip_wf: a concrete two-record list (one record
with a full position object, a multi-line note and ISO timestamps, one
record with an empty selection and empty position) is well-formed, and
serializing then parsing it returns it unchanged. -/
theorem C1_roundtrip_wf_witness :
    (∀ r ∈ [(⟨"a1".toList, "hello world".toList,
        .obj ⟨"notes/f.md".toList, 42, 3⟩, "2024-01-01T00:00:00.000Z".toList,
        "2024-01-02T00:00:00.000Z".toList,
        "first note\nsecond line".toList⟩ : Codec.Annotation),
      ⟨"b2".toList, [], .empty, "c2".toList, "u2".toList, "x".toList⟩],
      Codec.wfRecord r) ∧
    Codec.parseAnnotations ("T".toList)
      (Codec.serializeAnnotations
        [⟨"a1".toList, "hello world".toList,
          .obj ⟨"notes/f.md".toList, 42, 3⟩, "2024-01-01T00:00:00.000Z".toList,
          "2024-01-02T00:00:00.000Z".toList, "first note\nsecond line".toList⟩,
         ⟨"b2".toList, [], .empty, "c2".toList, "u2".toList, "x".toList⟩])
      = [⟨"a1".toList, "hello world".toList,
          .obj ⟨"notes/f.md".toList, 42, 3⟩, "2024-01-01T00:00:00.000Z".toList,
          "2024-01-02T00:00:00.000Z".toList, "first note\nsecond line".toList⟩,
         ⟨"b2".toList, [], .empty, "c2".toList, "u2".toList, "x".toList⟩] :=
  ⟨by decide,
    C1_roundtrip_wf ("T".toList)
      [⟨"a1".toList, "hello world".toList,
        .obj ⟨"notes/f.md".toList, 42, 3⟩, "2024-01-01T00:00:00.000Z".toList,
        "2024-01-02T00:00:00.000Z".toList, "first note\nsecond line".toList⟩,
       ⟨"b2".toList, [], .empty, "c2".toList, "u2".toList, "x".toList⟩]
      (by decide)⟩
